import Mathlib

/-! Collection latency collector of mongodb_exporter.

A shallow embedding of `collector/mongod/collections_latency.go`:

* the record types (`CollectionLatency`, `CollectionLatList`) and the histogram
  types they carry;
* the gauge family `collectionLatenciesHistogram` as a finite map from label
  sets to values, with `Reset`, `With(labels).Set(v)` and `Collect`;
* `LatencyStat.UpdateWithLabels` and `CollectionLatList.Export`;
* `GetCollectionLatList`, run against a record of what the MongoDB client
  answered during the call, threading the process-wide map `logSuppressCS`
  and the error lines written to the log.

Strings are Unicode texts, as the names and label values MongoDB returns are;
counts and instants are integers, they are only copied. In a returned record a
pointer field is given by the value it points to when the function returns,
`none` for nil; while a cursor is read the pointers of `collLatancy` are
addresses into a store, so that what `Decode` writes through them is seen by
every record that holds the same pointer.
-/

namespace Mongod

/-! ## Data model -/

/-- Modelled from the spec: the histogram bucket type is declared in another
file of the package; the spec gives it a boundary in microseconds (an `int64`,
it is passed to `strconv.FormatInt`) and a cumulative count. The count is only
ever copied, so it is kept as an integer. -/
structure HistBucket where
  Micros : Int
  Count : Int
deriving DecidableEq

/-- Modelled from the spec: `LatencyStat` is declared in another file of the
package; the spec gives it a total latency, a total number of operations and
an optional histogram. `Histogram = none` is the nil slice. -/
structure LatencyStat where
  Histogram : Option (List HistBucket)
  Latency : Int
  Ops : Int
deriving DecidableEq

/-- Modelled from the spec: `OpLatenciesStat` is declared in another file of
the package; it holds one optional (pointer, possibly nil) `LatencyStat` per
operation category. -/
structure OpLatenciesStat where
  Reads : Option LatencyStat
  Writes : Option LatencyStat
  Commands : Option LatencyStat
deriving DecidableEq

/-- The struct `CollectionLatency`. `LocalTime` is an instant, only copied. -/
structure CollectionLatency where
  Database : String
  Name : String
  Ns : String
  LocalTime : Int
  LatencyStats : OpLatenciesStat
deriving DecidableEq

/-- The struct `CollectionLatList`. -/
structure CollectionLatList where
  Members : List CollectionLatency
deriving DecidableEq

/-! ## The gauge family -/

/-- A value for each of the four label names of `collectionLatenciesHistogram`,
`[]string{"db", "coll", "type", "micros"}`. -/
structure LabelSet where
  db : String
  coll : String
  type : String
  micros : String
deriving DecidableEq

/-- One metric of the family: a label set and the gauge value. -/
abbrev Sample := LabelSet × Int

/-- The content of a `prometheus.GaugeVec`: the metrics created so far, in the
order of their creation. The order has no meaning in the library (a hash map);
the statements below are about membership and permutations only. -/
abbrev GaugeVec := List Sample

/-- The call `gv.With(labels).Set(v)`: the metric with these label values is
created when the family has none, and its value is overwritten otherwise. -/
def setGauge : GaugeVec → LabelSet → Int → GaugeVec
  | [], l, v => [(l, v)]
  | (l', v') :: rest, l, v =>
    if l' = l then (l', v) :: rest else (l', v') :: setGauge rest l v

/-- The call `gv.Reset()`: every metric of the family is deleted. -/
def Reset (_gv : GaugeVec) : GaugeVec := []

/-- The call `gv.Collect(ch)`: every metric of the family is sent on `ch`. -/
def Collect (gv : GaugeVec) : List Sample := gv

/-- The call `strconv.FormatInt(i, 10)`: the decimal digits of `i`, after a
minus sign when `i` is negative. -/
def FormatInt (i : Int) : String :=
  match i with
  | Int.ofNat n => Nat.repr n
  | Int.negSucc n => "-" ++ Nat.repr (n + 1)

/-! ## Export -/

/-- The method `(*LatencyStat).UpdateWithLabels(op, labels, gv)`. The map
`labels` holds "db" and "coll" on entry; "type" and "micros" are written before
every `With`, so the label set seen by `With` is the one built here. -/
def UpdateWithLabels (ls : LatencyStat) (op : String) (db coll : String)
    (gv : GaugeVec) : GaugeVec :=
  match ls.Histogram with
  | none => gv
  | some histogram =>
    histogram.foldl
      (fun g bucket => setGauge g ⟨db, coll, op, FormatInt bucket.Micros⟩ bucket.Count) gv

/-- The body of the loop of `Export` for one member. -/
def exportMember (gv : GaugeVec) (member : CollectionLatency) : GaugeVec :=
  let stat := member.LatencyStats
  let gv1 :=
    match stat.Reads with
    | some reads => UpdateWithLabels reads "read" member.Database member.Name gv
    | none => gv
  let gv2 :=
    match stat.Writes with
    | some writes => UpdateWithLabels writes "write" member.Database member.Name gv1
    | none => gv1
  match stat.Commands with
  | some commands => UpdateWithLabels commands "command" member.Database member.Name gv2
  | none => gv2

/-- A run-time fault of the Go program. -/
inductive Fault
  | nilDereference
deriving DecidableEq

/-- The method `(*CollectionLatList).Export(ch)`, on a receiver that may be the
nil pointer (`none`) and a family holding `gv`. The family is reset first; the
field access `collStatList.Members` faults on a nil receiver; otherwise the
result is the family after the loop and what `Collect` sends on `ch`. -/
def Export (collStatList : Option CollectionLatList) (gv : GaugeVec) :
    Except Fault (GaugeVec × List Sample) :=
  let gv0 := Reset gv
  match collStatList with
  | none => Except.error Fault.nilDereference
  | some l =>
    let gv1 := l.Members.foldl exportMember gv0
    Except.ok (gv1, Collect gv1)

/-! ## The client, the log and the suppression map -/

/-- What `cursor.Decode(&collLatancy)` did with one of the pointers `Reads`,
`Writes`, `Commands` of `collLatancy.LatencyStats`: the document has no such
key and the pointer is left as it was; the pointer is set to nil; or a value
is decoded through the pointer, into a new object when the pointer was nil and
into the object it already points to otherwise, which holds `content` once
`Decode` is done. -/
inductive PointerDecode
  | absent
  | null
  | value (content : LatencyStat)
deriving DecidableEq

/-- What `cursor.Decode(&collLatancy)` did for one document of the aggregation
cursor: whether it returned an error, the values it wrote to `Ns` and
`LocalTime` (`none`: the field is left as it was), and what it did with the
three pointers of `LatencyStats`. The struct is not cleared before decoding. -/
structure DecodeOutcome where
  failed : Bool
  Ns : Option String
  LocalTime : Option Int
  Reads : PointerDecode
  Writes : PointerDecode
  Commands : PointerDecode
deriving DecidableEq

/-- What `Collection(name).Aggregate(...)` returned: an error, or a cursor
that yields the given documents. -/
inductive AggregateResult
  | error
  | cursor (docs : List DecodeOutcome)
deriving DecidableEq

/-- One step of the `ListCollections` cursor: `c.Decode(&coll)` fails, or it
gives a collection name, for which `Aggregate` then answers `agg`. -/
inductive CollItem
  | decodeError
  | item (name : String) (agg : AggregateResult)
deriving DecidableEq

/-- What `Database(db).ListCollections(...)` returned: an error, or a cursor
with the given steps, whose `Close` fails or not. -/
inductive ListCollectionsResult
  | error
  | cursor (items : List CollItem) (closeFails : Bool)
deriving DecidableEq

/-- One name returned by `ListDatabaseNames`, with the answer the client gave
when the collections of that database were listed. -/
structure DbEntry where
  name : String
  colls : ListCollectionsResult
deriving DecidableEq

/-- The answers of the `*mongo.Client` during one call of
`GetCollectionLatList`: `ListDatabaseNames` fails, or it returns names. -/
inductive Client
  | listFails
  | lists (dbs : List DbEntry)
deriving DecidableEq

/-- The error-level lines the function writes (`log.Errorf`, `log.Error`). The
text of the error value is left out. -/
inductive LogLine
  | listDatabasesErr
  | listCollectionsErr (db : String)
  | collItemDecodeErr (db : String)
  | aggregateErr (db coll : String)
  | cursorDecodeErr (db coll : String)
  | closeErr (db : String)
deriving DecidableEq

/-- The state the function works on: the keys of the package-level map
`logSuppressCS` (only the presence of a key is ever tested), the error lines
logged so far in this call, and `collectionLatList.Members`. -/
structure State where
  logSuppressCS : List String
  log : List LogLine
  Members : List CollectionLatency
deriving DecidableEq

/-- The statement `delete(logSuppressCS, key)`. -/
def deleteKey (key : String) (st : State) : State :=
  { st with logSuppressCS := st.logSuppressCS.filter (fun k => k ≠ key) }

/-- The guarded report used on the three suppressed failures:
`_, logSFound := logSuppressCS[key]; if !logSFound { log.Errorf(...);
logSuppressCS[key] = true }`. -/
def reportOnce (key : String) (line : LogLine) (st : State) : State :=
  if key ∈ st.logSuppressCS then st
  else { st with log := st.log ++ [line], logSuppressCS := key :: st.logSuppressCS }

/-- An unguarded `log.Errorf` or `log.Error`. -/
def logError (line : LogLine) (st : State) : State :=
  { st with log := st.log ++ [line] }

/-! ## GetCollectionLatList -/

/-- The variable `collLatancy` of line 124 while the cursor of its collection
is read: the value fields, and the three pointers of `LatencyStats` as
addresses into the store of the objects `Decode` allocated (`none` is nil). -/
structure CollLatancy where
  Database : String
  Name : String
  Ns : String
  LocalTime : Int
  Reads : Option Nat
  Writes : Option Nat
  Commands : Option Nat
deriving DecidableEq

/-- The composite literal `CollectionLatency{}` of line 124. -/
def CollLatancy.zero : CollLatancy :=
  { Database := "", Name := "", Ns := "", LocalTime := 0, Reads := none, Writes := none,
    Commands := none }

/-- The state of the loop over one aggregation cursor: the state of the
function, the store of the objects allocated by `Decode` for this collection,
the variable `collLatancy`, and the copies of it appended to `Members`, which
hold its pointers. -/
structure CursorState where
  st : State
  store : List LatencyStat
  collLatancy : CollLatancy
  appended : List CollLatancy
deriving DecidableEq

/-- The state on entry of `for cursor.Next(...)`: `collLatancy` is the zero
value of line 124 and no object has been allocated for it. -/
def CursorState.start (st : State) : CursorState :=
  { st := st, store := [], collLatancy := CollLatancy.zero, appended := [] }

/-- What `Decode` does with one pointer field: the store and the pointer
afterwards. -/
def decodePointer (store : List LatencyStat) (ptr : Option Nat) :
    PointerDecode → List LatencyStat × Option Nat
  | PointerDecode.absent => (store, ptr)
  | PointerDecode.null => (store, none)
  | PointerDecode.value content =>
    match ptr with
    | none => (store ++ [content], some store.length)
    | some a => (store.set a content, some a)

/-- Reading through a pointer: nil gives `none`. -/
def deref (store : List LatencyStat) (ptr : Option Nat) : Option LatencyStat :=
  match ptr with
  | none => none
  | some a => store[a]?

/-- The record a copy of `collLatancy` stands for, its pointers read in the
given store. -/
def readRecord (store : List LatencyStat) (r : CollLatancy) : CollectionLatency :=
  { Database := r.Database, Name := r.Name, Ns := r.Ns, LocalTime := r.LocalTime,
    LatencyStats :=
      { Reads := deref store r.Reads, Writes := deref store r.Writes,
        Commands := deref store r.Commands } }

/-- The body of `for cursor.Next(...)` (lines 137 to 146) for one document:
`Decode` writes into the one `collLatancy` of the collection; a decode error is
logged and nothing else is done about it; the key of the collection is
deleted; `collLatancy` is stamped and a copy of it, pointers included, is
appended. -/
def docStep (db coll : String) (cs : CursorState) (d : DecodeOutcome) : CursorState :=
  let reads := decodePointer cs.store cs.collLatancy.Reads d.Reads
  let writes := decodePointer reads.1 cs.collLatancy.Writes d.Writes
  let commands := decodePointer writes.1 cs.collLatancy.Commands d.Commands
  let st1 := if d.failed then logError (LogLine.cursorDecodeErr db coll) cs.st else cs.st
  let st2 := deleteKey (db ++ "." ++ coll) st1
  let collLatancy : CollLatancy :=
    { Database := db, Name := coll, Ns := d.Ns.getD cs.collLatancy.Ns,
      LocalTime := d.LocalTime.getD cs.collLatancy.LocalTime,
      Reads := reads.2, Writes := writes.2, Commands := commands.2 }
  { st := st2, store := commands.1, collLatancy := collLatancy,
    appended := cs.appended ++ [collLatancy] }

/-- The body of `for c.Next(...)` (lines 116 to 148) for one step of the
`ListCollections` cursor. The objects the appended copies point to are written
only by the `Decode` calls of this cursor, `collLatancy` being a new variable
for every collection, so the records are read, and put in `Members`, once the
cursor is exhausted. -/
def collStep (db : String) (st : State) (it : CollItem) : State :=
  match it with
  | CollItem.decodeError => logError (LogLine.collItemDecodeErr db) st
  | CollItem.item name AggregateResult.error =>
    reportOnce (db ++ "." ++ name) (LogLine.aggregateErr db name) st
  | CollItem.item name (AggregateResult.cursor docs) =>
    let cs := docs.foldl (docStep db name) (CursorState.start st)
    { cs.st with Members := cs.st.Members ++ cs.appended.map (readRecord cs.store) }

/-- The body of `for _, db := range dbNames` (lines 100 to 153). -/
def dbStep (st : State) (e : DbEntry) : State :=
  match e.colls with
  | ListCollectionsResult.error => reportOnce e.name (LogLine.listCollectionsErr e.name) st
  | ListCollectionsResult.cursor items closeFails =>
    let st1 := deleteKey e.name st
    let st2 := items.foldl (collStep e.name) st1
    if closeFails then logError (LogLine.closeErr e.name) st2 else st2

/-- The result of one call: the returned pointer (`none` is nil), the map
`logSuppressCS` after the call, and the error lines logged by the call. -/
structure CallResult where
  ret : Option CollectionLatList
  logSuppressCS : List String
  log : List LogLine
deriving DecidableEq

/-- The function `GetCollectionLatList(client)`, called with the map
`logSuppressCS` holding the given keys. -/
def GetCollectionLatList (client : Client) (logSuppressCS : List String) : CallResult :=
  let st0 : State := { logSuppressCS := logSuppressCS, log := [], Members := [] }
  match client with
  | Client.listFails =>
    let st := reportOnce "" LogLine.listDatabasesErr st0
    { ret := none, logSuppressCS := st.logSuppressCS, log := st.log }
  | Client.lists dbs =>
    let st := dbs.foldl dbStep (deleteKey "" st0)
    { ret := some { Members := st.Members }, logSuppressCS := st.logSuppressCS,
      log := st.log }

/-- The map `logSuppressCS` after a sequence of calls, the first call on the
left. -/
def runCalls (calls : List Client) (logSuppressCS : List String) : List String :=
  calls.foldl (fun reg c => (GetCollectionLatList c reg).logSuppressCS) logSuppressCS

/-! ## What Export is expected to emit -/

/-- The buckets of one operation category: none for a nil category and for a
nil histogram. -/
def buckets (cat : Option LatencyStat) : List HistBucket :=
  match cat with
  | some ls =>
    match ls.Histogram with
    | some histogram => histogram
    | none => []
  | none => []

/-- The sample of one bucket: labels db, coll, type and the decimal boundary,
value the count. -/
def bucketSample (db coll op : String) (b : HistBucket) : Sample :=
  (⟨db, coll, op, FormatInt b.Micros⟩, b.Count)

/-- The samples of one category, one per bucket, in histogram order. -/
def categorySamples (db coll op : String) (cat : Option LatencyStat) : List Sample :=
  (buckets cat).map (bucketSample db coll op)

/-- The samples of one record: reads, then writes, then commands. -/
def memberSamples (m : CollectionLatency) : List Sample :=
  categorySamples m.Database m.Name "read" m.LatencyStats.Reads ++
    (categorySamples m.Database m.Name "write" m.LatencyStats.Writes ++
      categorySamples m.Database m.Name "command" m.LatencyStats.Commands)

/-- One sample per bucket of a record list, in traversal order: records in
list order, then reads, writes, commands, then buckets in histogram order. -/
def expectedSamples (members : List CollectionLatency) : List Sample :=
  members.flatMap memberSamples

/-- A sequence of `With(labels).Set(v)` calls. -/
def setAll (gv : GaugeVec) (ops : List Sample) : GaugeVec :=
  ops.foldl (fun g s => setGauge g s.1 s.2) gv

/-- The pairs (Database, Name) of a record list are pairwise distinct. -/
def distinctCollections (members : List CollectionLatency) : Prop :=
  (members.map (fun m => (m.Database, m.Name))).Nodup

/-- The bucket boundaries of a category are pairwise distinct. -/
def distinctBoundaries (cat : Option LatencyStat) : Prop :=
  ((buckets cat).map HistBucket.Micros).Nodup

instance (members : List CollectionLatency) : Decidable (distinctCollections members) := by
  unfold distinctCollections; infer_instance

instance (cat : Option LatencyStat) : Decidable (distinctBoundaries cat) := by
  unfold distinctBoundaries; infer_instance

/-- The write of a sample is the last one made to its label set. -/
def IsLastWrite (ops : List Sample) (k : LabelSet) (v : Int) : Prop :=
  ∃ before after, ops = before ++ (k, v) :: after ∧ ∀ s ∈ after, s.1 ≠ k

/-! ## Reading decimal numbers back -/

/-- The value of a decimal digit character. -/
def digitValue (c : Char) : Nat := c.toNat - 48

/-- The number written by a list of decimal digits, most significant first. -/
def decimalValue (cs : List Char) : Nat := cs.foldl (fun a c => a * 10 + digitValue c) 0

/-- Reading back what `FormatInt` writes. -/
def parseInt (s : String) : Int :=
  match s.data with
  | '-' :: cs => - (decimalValue cs : Int)
  | cs => (decimalValue cs : Int)

/-! ## What GetCollectionLatList appends -/

/-- The records the cursor of `db`.`coll` yields: the copies appended while
its documents are decoded, read once the cursor is exhausted. -/
def cursorRecords (db coll : String) (docs : List DecodeOutcome) : List CollectionLatency :=
  let cs := docs.foldl (docStep db coll) (CursorState.start ⟨[], [], []⟩)
  cs.appended.map (readRecord cs.store)

/-- What a pointer decode leaves in a pointer that was nil. -/
def decodedValue : PointerDecode → Option LatencyStat
  | PointerDecode.value content => some content
  | _ => none

/-- The records appended for one step of the `ListCollections` cursor. -/
def itemRecords (db : String) : CollItem → List CollectionLatency
  | CollItem.decodeError => []
  | CollItem.item _ AggregateResult.error => []
  | CollItem.item name (AggregateResult.cursor docs) => cursorRecords db name docs

/-- The records appended for the collections of one database. -/
def collectionRecords (db : String) (items : List CollItem) : List CollectionLatency :=
  items.flatMap (itemRecords db)

/-- The records appended for one database. -/
def dbRecords (e : DbEntry) : List CollectionLatency :=
  match e.colls with
  | ListCollectionsResult.error => []
  | ListCollectionsResult.cursor items _ => collectionRecords e.name items

/-- The records appended for a list of databases. -/
def appendedRecords (dbs : List DbEntry) : List CollectionLatency :=
  dbs.flatMap dbRecords

/-! ## The effects of a call, as a sequence of events -/

/-- One effect of the function on its state. -/
inductive Ev
  | report (key : String) (line : LogLine)
  | delete (key : String)
  | say (line : LogLine)
  | push (r : CollectionLatency)
deriving DecidableEq

/-- The effect of one event. -/
def Ev.run (st : State) : Ev → State
  | Ev.report key line => reportOnce key line st
  | Ev.delete key => deleteKey key st
  | Ev.say line => logError line st
  | Ev.push r => { st with Members := st.Members ++ [r] }

/-- The effect of a sequence of events. -/
def runEvents (evs : List Ev) (st : State) : State := evs.foldl Ev.run st

/-- The events of one document of an aggregation cursor. -/
def docEvents (db coll : String) (d : DecodeOutcome) : List Ev :=
  (if d.failed then [Ev.say (LogLine.cursorDecodeErr db coll)] else []) ++
    [Ev.delete (db ++ "." ++ coll)]

/-- The events of one step of the `ListCollections` cursor. -/
def collEvents (db : String) : CollItem → List Ev
  | CollItem.decodeError => [Ev.say (LogLine.collItemDecodeErr db)]
  | CollItem.item name AggregateResult.error =>
    [Ev.report (db ++ "." ++ name) (LogLine.aggregateErr db name)]
  | CollItem.item name (AggregateResult.cursor docs) =>
    docs.flatMap (docEvents db name) ++ (cursorRecords db name docs).map Ev.push

/-- The events of one database. -/
def dbEvents (e : DbEntry) : List Ev :=
  match e.colls with
  | ListCollectionsResult.error => [Ev.report e.name (LogLine.listCollectionsErr e.name)]
  | ListCollectionsResult.cursor items closeFails =>
    Ev.delete e.name :: (items.flatMap (collEvents e.name) ++
      (if closeFails then [Ev.say (LogLine.closeErr e.name)] else []))

/-- The events of one call. -/
def clientEvents : Client → List Ev
  | Client.listFails => [Ev.report "" LogLine.listDatabasesErr]
  | Client.lists dbs => Ev.delete "" :: dbs.flatMap dbEvents

/-! ## Failing and clearing scopes of a call -/

/-- The step of a `ListCollections` cursor of `db` is a collection whose
aggregation fails to start, and `k` is its key "db.collection". -/
def itemFails (db k : String) : CollItem → Prop
  | CollItem.item name AggregateResult.error => k = db ++ "." ++ name
  | _ => False

/-- The step of a `ListCollections` cursor of `db` is a collection whose
aggregation cursor yields a document, and `k` is its key "db.collection". -/
def itemClears (db k : String) : CollItem → Prop
  | CollItem.item name (AggregateResult.cursor docs) => docs ≠ [] ∧ k = db ++ "." ++ name
  | _ => False

/-- While the database `e` is handled, an operation of the scope with key `k`
fails: listing its collections (`k` is the database name), or starting the
aggregation of one of its collections (`k` is "database.collection"). -/
def dbFails (e : DbEntry) (k : String) : Prop :=
  match e.colls with
  | ListCollectionsResult.error => k = e.name
  | ListCollectionsResult.cursor items _ => ∃ it ∈ items, itemFails e.name k it

/-- While the database `e` is handled, the key `k` is deleted: its collections
are listed (`k` is the database name), or the aggregation cursor of one of its
collections yields a document (`k` is "database.collection"). -/
def dbClears (e : DbEntry) (k : String) : Prop :=
  match e.colls with
  | ListCollectionsResult.error => False
  | ListCollectionsResult.cursor items _ => k = e.name ∨ ∃ it ∈ items, itemClears e.name k it

/-- An operation of the scope with key `k` fails in the call: listing the
databases (`k` is ""), or an operation of one of the databases. -/
def scopeFails : Client → String → Prop
  | Client.listFails, k => k = ""
  | Client.lists dbs, k => ∃ e ∈ dbs, dbFails e k

/-- The call deletes the key `k`: the databases are listed (`k` is ""), or the
key is deleted while one of the databases is handled. -/
def scopeClears : Client → String → Prop
  | Client.listFails, _ => False
  | Client.lists dbs, k => k = "" ∨ ∃ e ∈ dbs, dbClears e k

/-- The step of a `ListCollections` cursor of `db` is a collection whose
aggregation cursor yields a document that decodes, and `k` is its key. -/
def itemRecovers (db k : String) : CollItem → Prop
  | CollItem.item name (AggregateResult.cursor docs) =>
    (∃ d ∈ docs, d.failed = false) ∧ k = db ++ "." ++ name
  | _ => False

/-- While the database `e` is handled, the scope with key `k` recovers: the
collections of `e` are listed (`k` is the database name), or a document of the
aggregation of one of its collections decodes (`k` is "database.collection"). -/
def dbRecovers (e : DbEntry) (k : String) : Prop :=
  match e.colls with
  | ListCollectionsResult.error => False
  | ListCollectionsResult.cursor items _ => k = e.name ∨ ∃ it ∈ items, itemRecovers e.name k it

/-- The scope with key `k` recovers in the call: the databases are listed
(`k` is ""), or the scope recovers while one of the databases is handled. -/
def scopeRecovers : Client → String → Prop
  | Client.listFails, _ => False
  | Client.lists dbs, k => k = "" ∨ ∃ e ∈ dbs, dbRecovers e k

/-- The step of a `ListCollections` cursor of `db` names a collection, and `k`
is the key of its aggregation. -/
def itemVisits (db k : String) : CollItem → Prop
  | CollItem.item name _ => k = db ++ "." ++ name
  | CollItem.decodeError => False

/-- While the database `e` is handled, an operation of the scope with key `k`
is run: listing the collections of `e`, or the aggregation of one of them. -/
def dbVisits (e : DbEntry) (k : String) : Prop :=
  k = e.name ∨
    match e.colls with
    | ListCollectionsResult.error => False
    | ListCollectionsResult.cursor items _ => ∃ it ∈ items, itemVisits e.name k it

/-- The call visits the scope with key `k`: it runs the listing of the
databases (`k` is ""), or an operation of that scope on one of the databases
it lists. -/
def visits : Client → String → Prop
  | Client.listFails, k => k = ""
  | Client.lists dbs, k => k = "" ∨ ∃ e ∈ dbs, dbVisits e k

/-! ## Names and hypotheses -/

/-- The string has no dot, as MongoDB requires of a database name. -/
def dotFree (s : String) : Prop := '.' ∉ s.data

instance (s : String) : Decidable (dotFree s) := by
  unfold dotFree; infer_instance

/-- The string can name a database: it is not empty and has no dot. -/
def validDbName (s : String) : Prop := s ≠ "" ∧ dotFree s

instance (s : String) : Decidable (validDbName s) := by
  unfold validDbName; infer_instance

/-- The steps of the `ListCollections` cursor of a database, none when the
listing failed. -/
def itemsOf (e : DbEntry) : List CollItem :=
  match e.colls with
  | ListCollectionsResult.cursor items _ => items
  | ListCollectionsResult.error => []

/-- The documents of the aggregation cursor of a collection, none when the
aggregation did not start. -/
def docsOf : CollItem → List DecodeOutcome
  | CollItem.item _ (AggregateResult.cursor docs) => docs
  | _ => []

/-- Every document returned by an aggregation cursor decodes. -/
def allDecode (dbs : List DbEntry) : Prop :=
  ∀ e ∈ dbs, ∀ it ∈ itemsOf e, ∀ d ∈ docsOf it, d.failed = false

instance (dbs : List DbEntry) : Decidable (allDecode dbs) := by
  unfold allDecode; infer_instance

/-- The call lists the databases, `d` is among them, and listing the
collections of `d` fails. -/
def listingFails (c : Client) (d : String) : Prop :=
  match c with
  | Client.listFails => False
  | Client.lists dbs =>
    (∃ e ∈ dbs, e.name = d) ∧ ∀ e ∈ dbs, e.name = d → e.colls = ListCollectionsResult.error

/-- The call lists the databases, `d` is among them, and listing the
collections of `d` succeeds. -/
def listingSucceeds (c : Client) (d : String) : Prop :=
  match c with
  | Client.listFails => False
  | Client.lists dbs =>
    (∃ e ∈ dbs, e.name = d) ∧ ∀ e ∈ dbs, e.name = d → e.colls ≠ ListCollectionsResult.error

instance (c : Client) (d : String) : Decidable (listingFails c d) :=
  match c with
  | Client.listFails => inferInstanceAs (Decidable False)
  | Client.lists dbs =>
    inferInstanceAs (Decidable ((∃ e ∈ dbs, e.name = d) ∧
      ∀ e ∈ dbs, e.name = d → e.colls = ListCollectionsResult.error))

instance (c : Client) (d : String) : Decidable (listingSucceeds c d) :=
  match c with
  | Client.listFails => inferInstanceAs (Decidable False)
  | Client.lists dbs =>
    inferInstanceAs (Decidable ((∃ e ∈ dbs, e.name = d) ∧
      ∀ e ∈ dbs, e.name = d → e.colls ≠ ListCollectionsResult.error))

/-- The key under which an error line is suppressed, none for the lines that
are written without consulting the map. -/
def lineKey : LogLine → Option String
  | LogLine.listDatabasesErr => some ""
  | LogLine.listCollectionsErr db => some db
  | LogLine.aggregateErr db coll => some (db ++ "." ++ coll)
  | LogLine.collItemDecodeErr _ => none
  | LogLine.cursorDecodeErr _ _ => none
  | LogLine.closeErr _ => none

/-- The database an error line is about, none for the failure to list the
databases. -/
def lineDb : LogLine → Option String
  | LogLine.listDatabasesErr => none
  | LogLine.listCollectionsErr db => some db
  | LogLine.collItemDecodeErr db => some db
  | LogLine.aggregateErr db _ => some db
  | LogLine.cursorDecodeErr db _ => some db
  | LogLine.closeErr db => some db

/-! ## Example answers of the client -/

/-- A latency document without any category. -/
def noStats : OpLatenciesStat := ⟨none, none, none⟩

/-- A document that decodes, with the given ns and localTime and no category. -/
def plainDoc (ns : String) (localTime : Int) : DecodeOutcome :=
  ⟨false, some ns, some localTime, PointerDecode.absent, PointerDecode.absent,
    PointerDecode.absent⟩

/-- A document on which `Decode` fails before it writes any field. -/
def failedDoc : DecodeOutcome :=
  ⟨true, none, none, PointerDecode.absent, PointerDecode.absent, PointerDecode.absent⟩

/-- A category with the single bucket (0, count). -/
def oneBucket (count : Int) : LatencyStat := ⟨some [⟨0, count⟩], 0, 0⟩

/-- Listing the collections of "X" fails; "Y" has one collection "c" whose
cursor yields two documents, with the read counts 5 and 9. -/
def clientXY : List DbEntry :=
  [⟨"X", ListCollectionsResult.error⟩,
   ⟨"Y", ListCollectionsResult.cursor
      [CollItem.item "c" (AggregateResult.cursor
        [⟨false, some "Y.c", some 1, PointerDecode.value (oneBucket 5), PointerDecode.absent,
            PointerDecode.absent⟩,
         ⟨false, some "Y.c", some 2, PointerDecode.value (oneBucket 9), PointerDecode.absent,
            PointerDecode.absent⟩])] false⟩]

/-- One database "db" with one collection "coll" whose cursor yields two
documents: the first fails to decode and leaves the zero values in the struct,
the second decodes. -/
def clientTwoDocs : Client :=
  Client.lists [⟨"db", ListCollectionsResult.cursor
    [CollItem.item "coll" (AggregateResult.cursor [failedDoc, plainDoc "db.coll" 7])] false⟩]

/-- One database "db" with one collection "coll" whose cursor yields one
document, which fails to decode. -/
def clientBadDoc : Client :=
  Client.lists [⟨"db", ListCollectionsResult.cursor
    [CollItem.item "coll" (AggregateResult.cursor [failedDoc])] false⟩]

/-- Listing the collections of the only database "a" fails. -/
def clientAFails : Client := Client.lists [⟨"a", ListCollectionsResult.error⟩]

/-- The collections of the only database "a" are listed: there is none. -/
def clientAEmpty : Client := Client.lists [⟨"a", ListCollectionsResult.cursor [] false⟩]

/-- The server has no database left. -/
def clientNoDb : Client := Client.lists []

/-- The aggregation of "b"."c" fails to start. -/
def clientAggFails : Client :=
  Client.lists [⟨"b", ListCollectionsResult.cursor
    [CollItem.item "c" AggregateResult.error] false⟩]

/-- The aggregation of "b"."c" starts and its cursor yields no document. -/
def clientAggEmpty : Client :=
  Client.lists [⟨"b", ListCollectionsResult.cursor
    [CollItem.item "c" (AggregateResult.cursor [])] false⟩]

/-- One database "db" with one collection "coll" whose cursor yields two
documents, as `$collStats` does through a router, one per shard; both decode.
The first has reads with count 5 and writes with count 1, the second has reads
with count 9 and no writes. -/
def clientTwoShards : List DbEntry :=
  [⟨"db", ListCollectionsResult.cursor
    [CollItem.item "coll" (AggregateResult.cursor
      [⟨false, some "db.coll", some 1, PointerDecode.value (oneBucket 5),
          PointerDecode.value (oneBucket 1), PointerDecode.absent⟩,
       ⟨false, some "db.coll", some 2, PointerDecode.value (oneBucket 9),
          PointerDecode.absent, PointerDecode.absent⟩])] false⟩]

/-- One record of "db"."coll" with the read buckets (0, 5) and (100, 9), and
nil Writes and Commands. -/
def oneReadRecord : CollectionLatList :=
  ⟨[⟨"db", "coll", "db.coll", 0, ⟨some ⟨some [⟨0, 5⟩, ⟨100, 9⟩], 0, 0⟩, none, none⟩⟩]⟩

/-! ## FormatInt is injective -/

theorem digitValue_digitChar (d : Nat) (h : d < 10) : digitValue (Nat.digitChar d) = d := by
  interval_cases d <;> rfl

theorem digitChar_ne_minus (d : Nat) (h : d < 10) : Nat.digitChar d ≠ '-' := by
  interval_cases d <;> decide

theorem decimalValue_append (xs : List Char) (c : Char) :
    decimalValue (xs ++ [c]) = decimalValue xs * 10 + digitValue c := by
  simp [decimalValue, List.foldl_append]

theorem toDigitsCore_acc (fuel : Nat) : ∀ (n : Nat) (ds : List Char),
    Nat.toDigitsCore 10 fuel n ds = Nat.toDigitsCore 10 fuel n [] ++ ds := by
  induction fuel with
  | zero => intro n ds; simp [Nat.toDigitsCore]
  | succ f ih =>
    intro n ds
    simp only [Nat.toDigitsCore]
    split
    · simp
    · rw [ih (n / 10) (_ :: ds), ih (n / 10) [_]]; simp

theorem decimalValue_toDigitsCore (fuel : Nat) : ∀ n : Nat, n < fuel →
    decimalValue (Nat.toDigitsCore 10 fuel n []) = n := by
  induction fuel with
  | zero => intro n h; omega
  | succ f ih =>
    intro n h
    simp only [Nat.toDigitsCore]
    split
    · rename_i h0
      have hlt : n < 10 := by omega
      have hmod : n % 10 = n := by omega
      rw [hmod]
      simp [decimalValue, digitValue_digitChar n hlt]
    · rename_i h0
      rw [toDigitsCore_acc, decimalValue_append, ih (n / 10) (by omega),
        digitValue_digitChar (n % 10) (Nat.mod_lt _ (by decide))]
      omega

theorem toDigitsCore_ne_minus (fuel : Nat) : ∀ (n : Nat) (ds : List Char),
    (∀ c ∈ ds, c ≠ '-') → ∀ c ∈ Nat.toDigitsCore 10 fuel n ds, c ≠ '-' := by
  induction fuel with
  | zero => intro n ds h; simpa [Nat.toDigitsCore] using h
  | succ f ih =>
    intro n ds h
    have hd : ∀ c ∈ Nat.digitChar (n % 10) :: ds, c ≠ '-' := by
      intro c hc
      rcases List.mem_cons.1 hc with rfl | hc
      · exact digitChar_ne_minus _ (Nat.mod_lt _ (by decide))
      · exact h c hc
    simp only [Nat.toDigitsCore]
    split
    · exact hd
    · exact ih _ _ hd

theorem decimalValue_repr (n : Nat) : decimalValue (Nat.repr n).data = n := by
  simp only [Nat.repr, Nat.toDigits, List.asString]
  exact decimalValue_toDigitsCore (n + 1) n (Nat.lt_succ_self n)

theorem repr_ne_minus (n : Nat) : ∀ c ∈ (Nat.repr n).data, c ≠ '-' := by
  simp only [Nat.repr, Nat.toDigits, List.asString]
  exact toDigitsCore_ne_minus (n + 1) n [] (by simp)

theorem parseInt_FormatInt (i : Int) : parseInt (FormatInt i) = i := by
  cases i with
  | ofNat n =>
    simp only [FormatInt, parseInt]
    have h1 := decimalValue_repr n
    have h2 := repr_ne_minus n
    split
    · rename_i cs heq
      exact absurd rfl (h2 '-' (by rw [heq]; simp))
    · rw [h1]; rfl
  | negSucc n =>
    have h1 := decimalValue_repr (n + 1)
    have : (FormatInt (Int.negSucc n)).data = '-' :: (Nat.repr (n + 1)).data := by
      simp [FormatInt, String.data_append]
    simp only [parseInt, this, h1]
    rfl

theorem FormatInt_injective : Function.Injective FormatInt :=
  Function.LeftInverse.injective parseInt_FormatInt

/-! ## The gauge family as a map -/

theorem setAll_nil (gv : GaugeVec) : setAll gv [] = gv := rfl

theorem setAll_cons (gv : GaugeVec) (s : Sample) (ops : List Sample) :
    setAll gv (s :: ops) = setAll (setGauge gv s.1 s.2) ops := rfl

theorem setAll_append (gv : GaugeVec) (xs ys : List Sample) :
    setAll gv (xs ++ ys) = setAll (setAll gv xs) ys := by
  simp [setAll, List.foldl_append]

theorem setGauge_of_not_mem (gv : GaugeVec) (l : LabelSet) (v : Int)
    (h : l ∉ gv.map Prod.fst) : setGauge gv l v = gv ++ [(l, v)] := by
  induction gv with
  | nil => rfl
  | cons a rest ih =>
    obtain ⟨l', v'⟩ := a
    simp only [List.map_cons, List.mem_cons, not_or] at h
    have hne : ¬ l' = l := fun e => h.1 e.symm
    simp [setGauge, hne, ih h.2]

theorem keys_setGauge (gv : GaugeVec) (l : LabelSet) (v : Int) :
    (setGauge gv l v).map Prod.fst =
      if l ∈ gv.map Prod.fst then gv.map Prod.fst else gv.map Prod.fst ++ [l] := by
  induction gv with
  | nil => simp [setGauge]
  | cons a rest ih =>
    obtain ⟨l', v'⟩ := a
    by_cases e : l' = l
    · subst e; simp [setGauge]
    · have e' : ¬ l = l' := fun h => e h.symm
      simp only [setGauge, e, if_false, List.map_cons, List.mem_cons, e', false_or, ih]
      split <;> simp

theorem nodup_keys_setGauge (gv : GaugeVec) (l : LabelSet) (v : Int)
    (h : (gv.map Prod.fst).Nodup) : ((setGauge gv l v).map Prod.fst).Nodup := by
  rw [keys_setGauge]
  split
  · exact h
  · rename_i hn
    exact List.nodup_append.2 ⟨h, List.nodup_singleton l, by
      intro x hx hx'
      rw [List.mem_singleton] at hx'
      exact hn (hx' ▸ hx)⟩

theorem mem_setGauge (gv : GaugeVec) (l : LabelSet) (v : Int)
    (h : (gv.map Prod.fst).Nodup) (k : LabelSet) (w : Int) :
    (k, w) ∈ setGauge gv l v ↔ (k = l ∧ w = v) ∨ (k ≠ l ∧ (k, w) ∈ gv) := by
  induction gv with
  | nil => simp [setGauge]
  | cons a rest ih =>
    obtain ⟨l', v'⟩ := a
    simp only [List.map_cons, List.nodup_cons] at h
    by_cases e : l' = l
    · subst e
      simp only [setGauge, if_true, List.mem_cons, Prod.mk.injEq]
      constructor
      · rintro (⟨rfl, rfl⟩ | hm)
        · exact Or.inl ⟨rfl, rfl⟩
        · refine Or.inr ⟨?_, Or.inr hm⟩
          rintro rfl
          exact h.1 (List.mem_map.2 ⟨(k, w), hm, rfl⟩)
      · rintro (⟨rfl, rfl⟩ | ⟨hne, hm⟩)
        · exact Or.inl ⟨rfl, rfl⟩
        · rcases hm with ⟨rfl, _⟩ | hm
          · exact absurd rfl hne
          · exact Or.inr hm
    · simp only [setGauge, e, if_false, List.mem_cons, Prod.mk.injEq, ih h.2]
      constructor
      · rintro (⟨rfl, rfl⟩ | hm)
        · exact Or.inr ⟨e, Or.inl ⟨rfl, rfl⟩⟩
        · rcases hm with hm | ⟨hne, hm⟩
          · exact Or.inl hm
          · exact Or.inr ⟨hne, Or.inr hm⟩
      · rintro (hm | ⟨hne, hm⟩)
        · exact Or.inr (Or.inl hm)
        · rcases hm with hm | hm
          · exact Or.inl hm
          · exact Or.inr (Or.inr ⟨hne, hm⟩)

theorem nodup_keys_setAll (ops : List Sample) : ∀ gv : GaugeVec,
    (gv.map Prod.fst).Nodup → ((setAll gv ops).map Prod.fst).Nodup := by
  induction ops with
  | nil => intro gv h; exact h
  | cons s ops ih =>
    intro gv h
    rw [setAll_cons]
    exact ih _ (nodup_keys_setGauge gv s.1 s.2 h)

theorem setAll_of_nodup (ops : List Sample) : ∀ gv : GaugeVec,
    ((gv ++ ops).map Prod.fst).Nodup → setAll gv ops = gv ++ ops := by
  induction ops with
  | nil => intro gv _; simp [setAll]
  | cons s ops ih =>
    intro gv h
    have hs : s.1 ∉ gv.map Prod.fst := by
      intro hm
      rw [List.map_append, List.map_cons] at h
      exact (List.nodup_append.1 h).2.2 hm (List.mem_cons_self _ _)
    rw [setAll_cons, setGauge_of_not_mem gv s.1 s.2 hs, ih]
    · simp
    · simpa using h

theorem isLastWrite_concat (ops : List Sample) (l : LabelSet) (v : Int) (k : LabelSet)
    (w : Int) :
    IsLastWrite (ops ++ [(l, v)]) k w ↔ (k = l ∧ w = v) ∨ (k ≠ l ∧ IsLastWrite ops k w) := by
  constructor
  · rintro ⟨before, after, heq, hafter⟩
    rcases List.eq_nil_or_concat after with rfl | ⟨after', x, rfl⟩
    · have := List.append_inj' heq rfl
      simp only [List.cons.injEq, Prod.mk.injEq, and_true] at this
      exact Or.inl ⟨this.2.1.symm, this.2.2.symm⟩
    · have h2 : ops ++ [(l, v)] = (before ++ (k, w) :: after') ++ [x] := by
        rw [heq]; simp
      have := List.append_inj' h2 rfl
      simp only [List.cons.injEq, and_true] at this
      obtain ⟨h3, rfl⟩ := this
      refine Or.inr ⟨?_, before, after', h3, ?_⟩
      · intro e
        exact hafter (l, v) (by simp) e.symm
      · intro s hs
        exact hafter s (by simp [hs])
  · rintro (⟨rfl, rfl⟩ | ⟨hne, before, after, rfl, hafter⟩)
    · exact ⟨ops, [], rfl, by simp⟩
    · refine ⟨before, after ++ [(l, v)], by simp, ?_⟩
      intro s hs
      rcases List.mem_append.1 hs with hs | hs
      · exact hafter s hs
      · rw [List.mem_singleton] at hs
        subst hs
        exact fun e => hne e.symm

theorem mem_setAll_nil_iff (ops : List Sample) (k : LabelSet) (w : Int) :
    (k, w) ∈ setAll [] ops ↔ IsLastWrite ops k w := by
  induction ops using List.reverseRecOn with
  | nil =>
    simp only [setAll_nil, List.not_mem_nil, false_iff]
    rintro ⟨before, after, heq, _⟩
    simp at heq
  | append_singleton ops s ih =>
    obtain ⟨l, v⟩ := s
    rw [setAll_append, setAll_cons, setAll_nil,
      mem_setGauge _ l v (nodup_keys_setAll ops [] List.nodup_nil), isLastWrite_concat, ih]

/-! ## Export runs the expected writes -/

theorem updateWithLabels_eq (ls : LatencyStat) (op db coll : String) (gv : GaugeVec) :
    UpdateWithLabels ls op db coll gv = setAll gv (categorySamples db coll op (some ls)) := by
  obtain ⟨h, lat, ops⟩ := ls
  cases h with
  | none => rfl
  | some h => simp [UpdateWithLabels, categorySamples, buckets, setAll, List.foldl_map, bucketSample]

theorem categorySamples_none (db coll op : String) : categorySamples db coll op none = [] := rfl

theorem exportMember_eq (gv : GaugeVec) (m : CollectionLatency) :
    exportMember gv m = setAll gv (memberSamples m) := by
  obtain ⟨db, name, ns, lt, ⟨r, w, c⟩⟩ := m
  cases r <;> cases w <;> cases c <;>
    simp [exportMember, memberSamples, updateWithLabels_eq, categorySamples_none,
      setAll_append, setAll_nil]

theorem foldl_exportMember_eq (members : List CollectionLatency) : ∀ gv : GaugeVec,
    members.foldl exportMember gv = setAll gv (expectedSamples members) := by
  induction members with
  | nil => intro gv; rfl
  | cons m ms ih =>
    intro gv
    rw [List.foldl_cons, ih, exportMember_eq]
    simp [expectedSamples, setAll_append]

theorem export_some (l : CollectionLatList) (gv : GaugeVec) :
    Export (some l) gv =
      Except.ok (setAll [] (expectedSamples l.Members), setAll [] (expectedSamples l.Members)) := by
  simp [Export, Reset, Collect, foldl_exportMember_eq]

/-! ## Distinct label sets of the expected samples -/

theorem labelSet_micros_injective (db coll op : String) :
    Function.Injective (fun i : Int => (⟨db, coll, op, FormatInt i⟩ : LabelSet)) := by
  intro a b h
  simp only [LabelSet.mk.injEq, true_and] at h
  exact FormatInt_injective h

theorem keys_categorySamples (db coll op : String) (cat : Option LatencyStat) :
    (categorySamples db coll op cat).map Prod.fst =
      ((buckets cat).map HistBucket.Micros).map
        (fun i : Int => (⟨db, coll, op, FormatInt i⟩ : LabelSet)) := by
  simp [categorySamples, bucketSample, List.map_map, Function.comp_def]

theorem nodup_keys_categorySamples (db coll op : String) (cat : Option LatencyStat)
    (h : distinctBoundaries cat) : ((categorySamples db coll op cat).map Prod.fst).Nodup := by
  rw [keys_categorySamples]
  exact List.Nodup.map (labelSet_micros_injective db coll op) h

theorem mem_categorySamples (db coll op : String) (cat : Option LatencyStat) (s : Sample)
    (h : s ∈ categorySamples db coll op cat) :
    s.1.db = db ∧ s.1.coll = coll ∧ s.1.type = op := by
  simp only [categorySamples, List.mem_map] at h
  obtain ⟨b, _, rfl⟩ := h
  exact ⟨rfl, rfl, rfl⟩

theorem mem_memberSamples (m : CollectionLatency) (s : Sample) (h : s ∈ memberSamples m) :
    s.1.db = m.Database ∧ s.1.coll = m.Name := by
  simp only [memberSamples, List.mem_append] at h
  rcases h with h | h | h <;>
    exact ⟨(mem_categorySamples _ _ _ _ s h).1, (mem_categorySamples _ _ _ _ s h).2.1⟩

theorem disjoint_keys_categorySamples (db coll op op' : String) (cat cat' : Option LatencyStat)
    (hne : op ≠ op') :
    List.Disjoint ((categorySamples db coll op cat).map Prod.fst)
      ((categorySamples db coll op' cat').map Prod.fst) := by
  intro k h1 h2
  obtain ⟨s, hs, rfl⟩ := List.mem_map.1 h1
  obtain ⟨t, ht, hst⟩ := List.mem_map.1 h2
  have e1 := (mem_categorySamples _ _ _ _ s hs).2.2
  have e2 := (mem_categorySamples _ _ _ _ t ht).2.2
  rw [hst] at e2
  exact hne (e1.symm.trans e2)

theorem nodup_keys_memberSamples (m : CollectionLatency)
    (hr : distinctBoundaries m.LatencyStats.Reads)
    (hw : distinctBoundaries m.LatencyStats.Writes)
    (hc : distinctBoundaries m.LatencyStats.Commands) :
    ((memberSamples m).map Prod.fst).Nodup := by
  simp only [memberSamples, List.map_append]
  refine List.nodup_append.2 ⟨nodup_keys_categorySamples _ _ _ _ hr,
    List.nodup_append.2 ⟨nodup_keys_categorySamples _ _ _ _ hw,
      nodup_keys_categorySamples _ _ _ _ hc, ?_⟩, ?_⟩
  · exact disjoint_keys_categorySamples _ _ _ _ _ _ (by decide)
  · intro k h1 h2
    rcases List.mem_append.1 h2 with h2 | h2
    · exact disjoint_keys_categorySamples _ _ "read" "write" _ _ (by decide) h1 h2
    · exact disjoint_keys_categorySamples _ _ "read" "command" _ _ (by decide) h1 h2

theorem nodup_keys_expectedSamples (members : List CollectionLatency)
    (hcoll : distinctCollections members)
    (hmic : ∀ m ∈ members, distinctBoundaries m.LatencyStats.Reads ∧
      distinctBoundaries m.LatencyStats.Writes ∧ distinctBoundaries m.LatencyStats.Commands) :
    ((expectedSamples members).map Prod.fst).Nodup := by
  induction members with
  | nil => simp [expectedSamples]
  | cons m ms ih =>
    simp only [distinctCollections, List.map_cons, List.nodup_cons] at hcoll
    have hm := hmic m (List.mem_cons_self _ _)
    have hrest := ih hcoll.2 (fun m' h' => hmic m' (List.mem_cons_of_mem _ h'))
    simp only [expectedSamples, List.flatMap_cons, List.map_append]
    refine List.nodup_append.2 ⟨nodup_keys_memberSamples m hm.1 hm.2.1 hm.2.2, hrest, ?_⟩
    intro k h1 h2
    obtain ⟨s, hs, rfl⟩ := List.mem_map.1 h1
    obtain ⟨t, ht, hst⟩ := List.mem_map.1 h2
    obtain ⟨m', hm', ht'⟩ := List.mem_flatMap.1 ht
    have e1 := mem_memberSamples m s hs
    have e2 := mem_memberSamples m' t ht'
    rw [hst] at e2
    apply hcoll.1
    refine List.mem_map.2 ⟨m', hm', ?_⟩
    rw [← e1.1, ← e1.2, ← e2.1, ← e2.2]

/-! ## The records appended by GetCollectionLatList -/

theorem st_members_docs (db coll : String) (docs : List DecodeOutcome) : ∀ cs : CursorState,
    (docs.foldl (docStep db coll) cs).st.Members = cs.st.Members := by
  induction docs with
  | nil => intro cs; rfl
  | cons d ds ih =>
    intro cs
    rw [List.foldl_cons, ih]
    by_cases h : d.failed <;> simp [docStep, deleteKey, logError, h]

theorem decoding_docs (db coll : String) (docs : List DecodeOutcome) :
    ∀ cs cs' : CursorState, cs.store = cs'.store → cs.collLatancy = cs'.collLatancy →
      cs.appended = cs'.appended →
      (docs.foldl (docStep db coll) cs).store = (docs.foldl (docStep db coll) cs').store ∧
      (docs.foldl (docStep db coll) cs).appended =
        (docs.foldl (docStep db coll) cs').appended := by
  induction docs with
  | nil => intro cs cs' h1 _ h3; exact ⟨h1, h3⟩
  | cons d ds ih =>
    intro cs cs' h1 h2 h3
    rw [List.foldl_cons, List.foldl_cons]
    apply ih <;> simp [docStep, h1, h2, h3]

theorem records_docs (db coll : String) (docs : List DecodeOutcome) (st : State) :
    (docs.foldl (docStep db coll) (CursorState.start st)).appended.map
        (readRecord (docs.foldl (docStep db coll) (CursorState.start st)).store) =
      cursorRecords db coll docs := by
  obtain ⟨h1, h2⟩ := decoding_docs db coll docs (CursorState.start st)
    (CursorState.start ⟨[], [], []⟩) rfl rfl rfl
  simp only [cursorRecords, h1, h2]

theorem members_collStep (db : String) (st : State) (it : CollItem) :
    (collStep db st it).Members = st.Members ++ itemRecords db it := by
  match it with
  | CollItem.decodeError => simp [collStep, logError, itemRecords]
  | CollItem.item name AggregateResult.error =>
    simp only [collStep, reportOnce, itemRecords]
    split <;> simp
  | CollItem.item name (AggregateResult.cursor docs) =>
    simp only [collStep, itemRecords, records_docs, st_members_docs]
    rfl

theorem members_items (db : String) (items : List CollItem) : ∀ st : State,
    (items.foldl (collStep db) st).Members = st.Members ++ collectionRecords db items := by
  induction items with
  | nil => intro st; simp [collectionRecords]
  | cons it its ih =>
    intro st
    rw [List.foldl_cons, ih, members_collStep]
    simp [collectionRecords]

theorem members_dbStep (st : State) (e : DbEntry) :
    (dbStep st e).Members = st.Members ++ dbRecords e := by
  obtain ⟨name, colls⟩ := e
  cases colls with
  | error =>
    simp only [dbStep, reportOnce, dbRecords]
    split <;> simp
  | cursor items closeFails =>
    cases closeFails <;> simp [dbStep, dbRecords, members_items, deleteKey, logError]

theorem members_dbs (dbs : List DbEntry) : ∀ st : State,
    (dbs.foldl dbStep st).Members = st.Members ++ appendedRecords dbs := by
  induction dbs with
  | nil => intro st; simp [appendedRecords]
  | cons e es ih =>
    intro st
    rw [List.foldl_cons, ih, members_dbStep]
    simp [appendedRecords]

theorem ret_lists (dbs : List DbEntry) (reg : List String) :
    (GetCollectionLatList (Client.lists dbs) reg).ret = some ⟨appendedRecords dbs⟩ := by
  simp [GetCollectionLatList, members_dbs, deleteKey]

/-! ## A call runs its events -/

theorem runEvents_append (xs ys : List Ev) (st : State) :
    runEvents (xs ++ ys) st = runEvents ys (runEvents xs st) := by
  simp [runEvents, List.foldl_append]

theorem runEvents_cons (x : Ev) (xs : List Ev) (st : State) :
    runEvents (x :: xs) st = runEvents xs (Ev.run st x) := rfl

theorem runEvents_nil (st : State) : runEvents [] st = st := rfl

theorem docStep_st (db coll : String) (cs : CursorState) (d : DecodeOutcome) :
    (docStep db coll cs d).st = runEvents (docEvents db coll d) cs.st := by
  by_cases h : d.failed <;> simp [docStep, docEvents, runEvents, Ev.run, h]

theorem docs_st (db coll : String) (docs : List DecodeOutcome) : ∀ cs : CursorState,
    (docs.foldl (docStep db coll) cs).st =
      runEvents (docs.flatMap (docEvents db coll)) cs.st := by
  induction docs with
  | nil => intro cs; rfl
  | cons d ds ih =>
    intro cs
    rw [List.foldl_cons, ih, docStep_st, List.flatMap_cons, runEvents_append]

theorem runEvents_push (rs : List CollectionLatency) : ∀ st : State,
    runEvents (rs.map Ev.push) st = { st with Members := st.Members ++ rs } := by
  induction rs with
  | nil => intro st; simp [runEvents]
  | cons r rs ih =>
    intro st
    rw [List.map_cons, runEvents_cons, ih]
    simp [Ev.run]

theorem collStep_eq (db : String) (st : State) (it : CollItem) :
    collStep db st it = runEvents (collEvents db it) st := by
  match it with
  | CollItem.decodeError => rfl
  | CollItem.item name AggregateResult.error => rfl
  | CollItem.item name (AggregateResult.cursor docs) =>
    simp only [collStep, collEvents, runEvents_append, runEvents_push, records_docs, docs_st]
    rfl

theorem items_eq (db : String) (items : List CollItem) : ∀ st : State,
    items.foldl (collStep db) st = runEvents (items.flatMap (collEvents db)) st := by
  induction items with
  | nil => intro st; rfl
  | cons it its ih =>
    intro st
    rw [List.foldl_cons, ih, collStep_eq, List.flatMap_cons, runEvents_append]

theorem dbStep_eq (st : State) (e : DbEntry) : dbStep st e = runEvents (dbEvents e) st := by
  obtain ⟨name, colls⟩ := e
  cases colls with
  | error => rfl
  | cursor items closeFails =>
    cases closeFails <;>
      simp [dbStep, dbEvents, items_eq, runEvents_cons, runEvents_append, Ev.run, runEvents_nil]

theorem dbs_eq (dbs : List DbEntry) : ∀ st : State,
    dbs.foldl dbStep st = runEvents (dbs.flatMap dbEvents) st := by
  induction dbs with
  | nil => intro st; rfl
  | cons e es ih =>
    intro st
    rw [List.foldl_cons, ih, dbStep_eq, List.flatMap_cons, runEvents_append]

theorem call_eq (c : Client) (reg : List String) :
    (GetCollectionLatList c reg).logSuppressCS =
        (runEvents (clientEvents c) ⟨reg, [], []⟩).logSuppressCS ∧
      (GetCollectionLatList c reg).log = (runEvents (clientEvents c) ⟨reg, [], []⟩).log := by
  cases c with
  | listFails => exact ⟨rfl, rfl⟩
  | lists dbs =>
    simp [GetCollectionLatList, clientEvents, dbs_eq, runEvents_cons, Ev.run]

/-! ## The suppression map under a sequence of events -/

theorem mem_reg_run (k : String) (st : State) (ev : Ev) :
    k ∈ (Ev.run st ev).logSuppressCS ↔
      (∃ line, ev = Ev.report k line) ∨ (k ∈ st.logSuppressCS ∧ ev ≠ Ev.delete k) := by
  cases ev with
  | report key line =>
    simp only [Ev.run, reportOnce, Ev.report.injEq, exists_and_left, exists_eq', and_true,
      ne_eq, not_false_eq_true, reduceCtorEq]
    split
    · rename_i h
      constructor
      · intro hk; exact Or.inr hk
      · rintro (rfl | hk)
        · exact h
        · exact hk
    · simp only [List.mem_cons]
      constructor
      · rintro (rfl | hk)
        · exact Or.inl rfl
        · exact Or.inr hk
      · rintro (rfl | hk)
        · exact Or.inl rfl
        · exact Or.inr hk
  | delete key =>
    simp only [Ev.run, deleteKey, List.mem_filter, decide_eq_true_eq, reduceCtorEq, exists_false,
      false_or, ne_eq, Ev.delete.injEq]
    constructor
    · rintro ⟨h1, h2⟩; exact ⟨h1, fun e => h2 e.symm⟩
    · rintro ⟨h1, h2⟩; exact ⟨h1, fun e => h2 e.symm⟩
  | say line => simp [Ev.run, logError]
  | push r => simp [Ev.run]

theorem mem_reg_runEvents (k : String) (evs : List Ev) : ∀ st : State,
    k ∈ (runEvents evs st).logSuppressCS →
      (∃ line, Ev.report k line ∈ evs) ∨ (k ∈ st.logSuppressCS ∧ Ev.delete k ∉ evs) := by
  induction evs with
  | nil => intro st h; exact Or.inr ⟨h, by simp⟩
  | cons ev evs ih =>
    intro st h
    rw [runEvents_cons] at h
    rcases ih _ h with ⟨line, hl⟩ | ⟨hk, hd⟩
    · exact Or.inl ⟨line, List.mem_cons_of_mem _ hl⟩
    · rcases (mem_reg_run k st ev).1 hk with ⟨line, rfl⟩ | ⟨hk', hne⟩
      · exact Or.inl ⟨line, List.mem_cons_self _ _⟩
      · refine Or.inr ⟨hk', ?_⟩
        intro hm
        rcases List.mem_cons.1 hm with e | hm
        · exact hne e.symm
        · exact hd hm

theorem mem_reg_runEvents_of_no_delete (k : String) (evs : List Ev) : ∀ st : State,
    (k ∈ st.logSuppressCS ∨ ∃ line, Ev.report k line ∈ evs) → Ev.delete k ∉ evs →
      k ∈ (runEvents evs st).logSuppressCS := by
  induction evs with
  | nil =>
    intro st h _
    rcases h with h | ⟨line, hl⟩
    · exact h
    · simp at hl
  | cons ev evs ih =>
    intro st h hd
    rw [runEvents_cons]
    have hd1 : ev ≠ Ev.delete k := fun e => hd (e ▸ List.mem_cons_self _ _)
    have hd2 : Ev.delete k ∉ evs := fun hm => hd (List.mem_cons_of_mem _ hm)
    apply ih _ _ hd2
    rcases h with h | ⟨line, hl⟩
    · exact Or.inl ((mem_reg_run k st ev).2 (Or.inr ⟨h, hd1⟩))
    · rcases List.mem_cons.1 hl with e | hl
      · exact Or.inl ((mem_reg_run k st ev).2 (Or.inl ⟨line, e.symm⟩))
      · exact Or.inr ⟨line, hl⟩

theorem mem_log_run (l : LogLine) (st : State) (ev : Ev) (h : l ∈ (Ev.run st ev).log) :
    l ∈ st.log ∨ ev = Ev.say l ∨ ∃ k, ev = Ev.report k l ∧ k ∉ st.logSuppressCS := by
  cases ev with
  | report key line =>
    simp only [Ev.run, reportOnce] at h
    split at h
    · exact Or.inl h
    · rename_i hk
      simp only [List.mem_append, List.mem_singleton] at h
      rcases h with h | rfl
      · exact Or.inl h
      · exact Or.inr (Or.inr ⟨key, rfl, hk⟩)
  | delete key => exact Or.inl (by simpa [Ev.run, deleteKey] using h)
  | say line =>
    simp only [Ev.run, logError, List.mem_append, List.mem_singleton] at h
    rcases h with h | rfl
    · exact Or.inl h
    · exact Or.inr (Or.inl rfl)
  | push r => exact Or.inl (by simpa [Ev.run] using h)

theorem mem_log_runEvents (l : LogLine) (evs : List Ev) : ∀ st : State,
    l ∈ (runEvents evs st).log →
      l ∈ st.log ∨ Ev.say l ∈ evs ∨
        ∃ k, Ev.report k l ∈ evs ∧ (k ∉ st.logSuppressCS ∨ Ev.delete k ∈ evs) := by
  induction evs with
  | nil => intro st h; exact Or.inl h
  | cons ev evs ih =>
    intro st h
    rw [runEvents_cons] at h
    rcases ih _ h with h1 | h1 | ⟨k, hr, hk⟩
    · rcases mem_log_run l st ev h1 with h2 | rfl | ⟨k, rfl, hk⟩
      · exact Or.inl h2
      · exact Or.inr (Or.inl (List.mem_cons_self _ _))
      · exact Or.inr (Or.inr ⟨k, List.mem_cons_self _ _, Or.inl hk⟩)
    · exact Or.inr (Or.inl (List.mem_cons_of_mem _ h1))
    · refine Or.inr (Or.inr ⟨k, List.mem_cons_of_mem _ hr, ?_⟩)
      rcases hk with hk | hk
      · by_cases hs : k ∈ st.logSuppressCS
        · right
          by_cases he : ev = Ev.delete k
          · exact he ▸ List.mem_cons_self _ _
          · exact absurd ((mem_reg_run k st ev).2 (Or.inr ⟨hs, he⟩)) hk
        · exact Or.inl hs
      · exact Or.inr (List.mem_cons_of_mem _ hk)

/-! ## The events of a call, read off the answers of the client -/

theorem report_mem_docEvents (k : String) (line : LogLine) (db coll : String)
    (d : DecodeOutcome) : Ev.report k line ∉ docEvents db coll d := by
  by_cases h : d.failed <;> simp [docEvents, h]

theorem delete_mem_docEvents (k db coll : String) (d : DecodeOutcome) :
    Ev.delete k ∈ docEvents db coll d ↔ k = db ++ "." ++ coll := by
  by_cases h : d.failed <;> simp [docEvents, h]

theorem report_mem_collEvents (k db : String) (it : CollItem) :
    (∃ line, Ev.report k line ∈ collEvents db it) ↔ itemFails db k it := by
  match it with
  | CollItem.decodeError => simp [collEvents, itemFails]
  | CollItem.item name AggregateResult.error => simp [collEvents, itemFails]
  | CollItem.item name (AggregateResult.cursor docs) =>
    simp [collEvents, itemFails, report_mem_docEvents]

theorem delete_mem_collEvents (k db : String) (it : CollItem) :
    Ev.delete k ∈ collEvents db it ↔ itemClears db k it := by
  match it with
  | CollItem.decodeError => simp [collEvents, itemClears]
  | CollItem.item name AggregateResult.error => simp [collEvents, itemClears]
  | CollItem.item name (AggregateResult.cursor docs) =>
    simp only [collEvents, itemClears, List.mem_append, List.mem_flatMap, delete_mem_docEvents,
      List.mem_map, reduceCtorEq, and_false, exists_false, or_false]
    constructor
    · rintro ⟨d, hd, rfl⟩
      exact ⟨List.ne_nil_of_mem hd, rfl⟩
    · rintro ⟨hne, rfl⟩
      obtain ⟨d, hd⟩ := List.exists_mem_of_ne_nil docs hne
      exact ⟨d, hd, rfl⟩

theorem report_mem_dbEvents (k : String) (e : DbEntry) :
    (∃ line, Ev.report k line ∈ dbEvents e) ↔ dbFails e k := by
  obtain ⟨name, colls⟩ := e
  cases colls with
  | error => simp [dbEvents, dbFails]
  | cursor items closeFails =>
    simp only [dbEvents, dbFails, List.mem_cons, reduceCtorEq, List.mem_append,
      List.mem_flatMap, false_or]
    constructor
    · rintro ⟨line, ⟨it, hit, hl⟩ | hl⟩
      · exact ⟨it, hit, (report_mem_collEvents k name it).1 ⟨line, hl⟩⟩
      · cases closeFails <;> simp at hl
    · rintro ⟨it, hit, hf⟩
      obtain ⟨line, hl⟩ := (report_mem_collEvents k name it).2 hf
      exact ⟨line, Or.inl ⟨it, hit, hl⟩⟩

theorem delete_mem_dbEvents (k : String) (e : DbEntry) :
    Ev.delete k ∈ dbEvents e ↔ dbClears e k := by
  obtain ⟨name, colls⟩ := e
  cases colls with
  | error => simp [dbEvents, dbClears]
  | cursor items closeFails =>
    cases closeFails <;>
      simp [dbEvents, dbClears, delete_mem_collEvents]

theorem report_mem_clientEvents (k : String) (c : Client) :
    (∃ line, Ev.report k line ∈ clientEvents c) ↔ scopeFails c k := by
  cases c with
  | listFails => simp [clientEvents, scopeFails]
  | lists dbs =>
    simp only [clientEvents, scopeFails, List.mem_cons, reduceCtorEq, List.mem_flatMap, false_or]
    constructor
    · rintro ⟨line, e, he, hl⟩
      exact ⟨e, he, (report_mem_dbEvents k e).1 ⟨line, hl⟩⟩
    · rintro ⟨e, he, hf⟩
      obtain ⟨line, hl⟩ := (report_mem_dbEvents k e).2 hf
      exact ⟨line, e, he, hl⟩

theorem delete_mem_clientEvents (k : String) (c : Client) :
    Ev.delete k ∈ clientEvents c ↔ scopeClears c k := by
  cases c with
  | listFails => simp [clientEvents, scopeClears]
  | lists dbs => simp [clientEvents, scopeClears, delete_mem_dbEvents]

/-! ## The suppression map after a call -/

theorem mem_reg_call (k : String) (c : Client) (reg : List String)
    (h : k ∈ (GetCollectionLatList c reg).logSuppressCS) :
    scopeFails c k ∨ (k ∈ reg ∧ ¬ scopeClears c k) := by
  rw [(call_eq c reg).1] at h
  rcases mem_reg_runEvents k _ _ h with hr | ⟨hk, hd⟩
  · exact Or.inl ((report_mem_clientEvents k c).1 hr)
  · exact Or.inr ⟨hk, fun hc => hd ((delete_mem_clientEvents k c).2 hc)⟩

theorem mem_reg_call_of_not_clears (k : String) (c : Client) (reg : List String)
    (h : k ∈ reg ∨ scopeFails c k) (hc : ¬ scopeClears c k) :
    k ∈ (GetCollectionLatList c reg).logSuppressCS := by
  rw [(call_eq c reg).1]
  apply mem_reg_runEvents_of_no_delete
  · rcases h with h | h
    · exact Or.inl h
    · exact Or.inr ((report_mem_clientEvents k c).2 h)
  · exact fun hd => hc ((delete_mem_clientEvents k c).1 hd)

theorem not_mem_reg_call (k : String) (c : Client) (reg : List String)
    (hc : scopeClears c k) (hf : ¬ scopeFails c k) :
    k ∉ (GetCollectionLatList c reg).logSuppressCS := by
  intro h
  rcases mem_reg_call k c reg h with h1 | ⟨_, h2⟩
  · exact hf h1
  · exact h2 hc

/-! ## Keys and names -/

theorem dot_mem_key (db coll : String) : '.' ∈ (db ++ "." ++ coll).data := by
  simp [String.data_append]

theorem key_ne_of_dotFree (d db coll : String) (h : dotFree d) : d ≠ db ++ "." ++ coll := by
  intro e
  exact h (e ▸ dot_mem_key db coll)

/-! ## Lines and the keys they are reported under -/

theorem lineKey_of_report_mem (k : String) (l : LogLine) (c : Client)
    (h : Ev.report k l ∈ clientEvents c) : lineKey l = some k := by
  cases c with
  | listFails =>
    simp only [clientEvents, List.mem_singleton, Ev.report.injEq] at h
    obtain ⟨rfl, rfl⟩ := h
    rfl
  | lists dbs =>
    simp only [clientEvents, List.mem_cons, reduceCtorEq, List.mem_flatMap, false_or] at h
    obtain ⟨⟨name, colls⟩, _, he⟩ := h
    cases colls with
    | error =>
      simp only [dbEvents, List.mem_singleton, Ev.report.injEq] at he
      obtain ⟨rfl, rfl⟩ := he
      rfl
    | cursor items closeFails =>
      simp only [dbEvents, List.mem_cons, reduceCtorEq, List.mem_append, List.mem_flatMap,
        false_or] at he
      rcases he with ⟨it, _, hit⟩ | he
      · match it with
        | CollItem.decodeError => simp [collEvents] at hit
        | CollItem.item n AggregateResult.error =>
          simp only [collEvents, List.mem_singleton, Ev.report.injEq] at hit
          obtain ⟨rfl, rfl⟩ := hit
          rfl
        | CollItem.item n (AggregateResult.cursor docs) =>
          simp only [collEvents, List.mem_append, List.mem_flatMap, List.mem_map, reduceCtorEq,
            and_false, exists_false, or_false] at hit
          obtain ⟨d, _, hd⟩ := hit
          exact absurd hd (report_mem_docEvents _ _ _ _ _)
      · cases closeFails <;> simp at he

theorem lineKey_of_say_mem (l : LogLine) (c : Client)
    (h : Ev.say l ∈ clientEvents c) : lineKey l = none := by
  cases c with
  | listFails => simp [clientEvents] at h
  | lists dbs =>
    simp only [clientEvents, List.mem_cons, reduceCtorEq, List.mem_flatMap, false_or] at h
    obtain ⟨⟨name, colls⟩, _, he⟩ := h
    cases colls with
    | error => simp [dbEvents] at he
    | cursor items closeFails =>
      simp only [dbEvents, List.mem_cons, reduceCtorEq, List.mem_append, List.mem_flatMap,
        false_or] at he
      rcases he with ⟨it, _, hit⟩ | he
      · match it with
        | CollItem.decodeError =>
          simp only [collEvents, List.mem_singleton, Ev.say.injEq] at hit
          subst hit
          rfl
        | CollItem.item n AggregateResult.error => simp [collEvents] at hit
        | CollItem.item n (AggregateResult.cursor docs) =>
          simp only [collEvents, List.mem_append, List.mem_flatMap, List.mem_map, reduceCtorEq,
            and_false, exists_false, or_false] at hit
          obtain ⟨d, _, hd⟩ := hit
          by_cases hf : d.failed
          · simp only [docEvents, hf, if_true, List.singleton_append, List.mem_cons,
              Ev.say.injEq, reduceCtorEq, List.mem_singleton, or_false, List.not_mem_nil] at hd
            subst hd
            rfl
          · simp [docEvents, hf] at hd
      · cases closeFails
        · simp at he
        · simp only [if_true, List.mem_singleton, Ev.say.injEq] at he
          subst he
          rfl

/-- A line that is suppressed under a key present in the map is not written
by a call that does not delete the key. -/
theorem suppressed_line_not_logged (k : String) (l : LogLine) (c : Client)
    (reg : List String) (hl : lineKey l = some k) (hk : k ∈ reg) (hc : ¬ scopeClears c k) :
    l ∉ (GetCollectionLatList c reg).log := by
  intro h
  rw [(call_eq c reg).2] at h
  rcases mem_log_runEvents l _ _ h with h1 | h1 | ⟨k', hr, hk'⟩
  · simp at h1
  · have := lineKey_of_say_mem l c h1
    rw [hl] at this
    exact absurd this (by simp)
  · have := lineKey_of_report_mem k' l c hr
    rw [hl] at this
    obtain rfl : k = k' := Option.some.inj this
    rcases hk' with hk' | hk'
    · exact hk' hk
    · exact hc ((delete_mem_clientEvents k c).1 hk')

/-! ## Records and the database they come from -/

theorem database_appended (db coll : String) (docs : List DecodeOutcome) :
    ∀ cs : CursorState, (∀ r ∈ cs.appended, r.Database = db) →
      ∀ r ∈ (docs.foldl (docStep db coll) cs).appended, r.Database = db := by
  induction docs with
  | nil => intro cs h; exact h
  | cons d ds ih =>
    intro cs h
    rw [List.foldl_cons]
    apply ih
    intro r hr
    simp only [docStep, List.mem_append, List.mem_singleton] at hr
    rcases hr with hr | rfl
    · exact h r hr
    · rfl

theorem database_cursorRecords (db coll : String) (docs : List DecodeOutcome)
    (r : CollectionLatency) (h : r ∈ cursorRecords db coll docs) : r.Database = db := by
  simp only [cursorRecords, List.mem_map] at h
  obtain ⟨raw, hraw, rfl⟩ := h
  exact database_appended db coll docs _ (by simp [CursorState.start]) raw hraw

/-- A cursor that yields a single document gives one record, which keeps what
`Decode` wrote for that document. -/
theorem cursorRecords_single (db coll : String) (d : DecodeOutcome) :
    cursorRecords db coll [d] =
      [⟨db, coll, d.Ns.getD "", d.LocalTime.getD 0,
        ⟨decodedValue d.Reads, decodedValue d.Writes, decodedValue d.Commands⟩⟩] := by
  obtain ⟨f, ns, lt, r, w, c⟩ := d
  cases r <;> cases w <;> cases c <;> rfl

theorem mem_dbRecords (e : DbEntry) (r : CollectionLatency) (h : r ∈ dbRecords e) :
    r.Database = e.name ∧ e.colls ≠ ListCollectionsResult.error := by
  obtain ⟨name, colls⟩ := e
  cases colls with
  | error => simp [dbRecords] at h
  | cursor items closeFails =>
    refine ⟨?_, by simp⟩
    simp only [dbRecords, collectionRecords, List.mem_flatMap] at h
    obtain ⟨it, _, hr⟩ := h
    match it with
    | CollItem.decodeError => simp [itemRecords] at hr
    | CollItem.item n AggregateResult.error => simp [itemRecords] at hr
    | CollItem.item n (AggregateResult.cursor docs) =>
      exact database_cursorRecords name n docs r hr

theorem dbRecords_block (dbs : List DbEntry) (e : DbEntry) (h : e ∈ dbs) :
    dbRecords e <:+: appendedRecords dbs := by
  obtain ⟨s, t, rfl⟩ := List.append_of_mem h
  refine ⟨appendedRecords s, appendedRecords t, ?_⟩
  simp [appendedRecords]

theorem appendedRecords_single (e : DbEntry) : appendedRecords [e] = dbRecords e := by
  simp [appendedRecords]

/-! ## Listing outcomes and the keys of a call -/

theorem scopeFails_of_listingFails (c : Client) (d : String) (h : listingFails c d) :
    scopeFails c d := by
  cases c with
  | listFails => exact h.elim
  | lists dbs =>
    obtain ⟨⟨e, he, hn⟩, hall⟩ := h
    refine ⟨e, he, ?_⟩
    have := hall e he hn
    simp [dbFails, this, hn]

theorem not_scopeClears_of_listingFails (c : Client) (d : String) (hd : validDbName d)
    (h : listingFails c d) : ¬ scopeClears c d := by
  cases c with
  | listFails => exact fun hc => hc
  | lists dbs =>
    rintro (rfl | ⟨⟨name, colls⟩, he, hc⟩)
    · exact hd.1 rfl
    · cases colls with
      | error => exact hc
      | cursor items closeFails =>
        rcases hc with rfl | ⟨it, _, hit⟩
        · have := h.2 _ he rfl
          simp at this
        · match it with
          | CollItem.decodeError => exact hit
          | CollItem.item n AggregateResult.error => exact hit
          | CollItem.item n (AggregateResult.cursor docs) =>
            exact key_ne_of_dotFree d name n hd.2 hit.2

theorem scopeClears_of_listingSucceeds (c : Client) (d : String) (h : listingSucceeds c d) :
    scopeClears c d := by
  cases c with
  | listFails => exact h.elim
  | lists dbs =>
    obtain ⟨⟨⟨name, colls⟩, he, hn⟩, hall⟩ := h
    refine Or.inr ⟨_, he, ?_⟩
    have := hall _ he hn
    cases colls with
    | error => exact absurd rfl this
    | cursor items closeFails => exact Or.inl hn.symm

theorem not_scopeFails_of_listingSucceeds (c : Client) (d : String) (hd : dotFree d)
    (h : listingSucceeds c d) : ¬ scopeFails c d := by
  cases c with
  | listFails => exact h.elim
  | lists dbs =>
    rintro ⟨⟨name, colls⟩, he, hf⟩
    cases colls with
    | error =>
      have hn : name = d := hf.symm
      exact h.2 _ he hn rfl
    | cursor items closeFails =>
      obtain ⟨it, _, hit⟩ := hf
      match it with
      | CollItem.decodeError => exact hit
      | CollItem.item n AggregateResult.error => exact key_ne_of_dotFree d name n hd hit
      | CollItem.item n (AggregateResult.cursor docs) => exact hit

/-! ## Lines and the database they are about -/

theorem line_of_collEvents (l : LogLine) (db : String) (it : CollItem)
    (h : Ev.say l ∈ collEvents db it ∨ ∃ k, Ev.report k l ∈ collEvents db it) :
    lineDb l = some db := by
  match it with
  | CollItem.decodeError =>
    simp only [collEvents, List.mem_singleton, Ev.say.injEq, reduceCtorEq, exists_false,
      or_false] at h
    subst h
    rfl
  | CollItem.item n AggregateResult.error =>
    simp only [collEvents, List.mem_singleton, reduceCtorEq, Ev.report.injEq, false_or] at h
    obtain ⟨k, _, rfl⟩ := h
    rfl
  | CollItem.item n (AggregateResult.cursor docs) =>
    simp only [collEvents, List.mem_append, List.mem_flatMap, List.mem_map, reduceCtorEq,
      and_false, exists_false, or_false] at h
    rcases h with ⟨d, _, hd⟩ | ⟨k, d, _, hd⟩
    · by_cases hf : d.failed
      · simp only [docEvents, hf, if_true, List.singleton_append, List.mem_cons,
          Ev.say.injEq, reduceCtorEq, List.mem_singleton, or_false, List.not_mem_nil] at hd
        subst hd
        rfl
      · simp [docEvents, hf] at hd
    · exact absurd hd (report_mem_docEvents _ _ _ _ _)

theorem line_of_dbEvents (l : LogLine) (e : DbEntry)
    (h : Ev.say l ∈ dbEvents e ∨ ∃ k, Ev.report k l ∈ dbEvents e) :
    lineDb l = some e.name ∧
      (e.colls = ListCollectionsResult.error → l = LogLine.listCollectionsErr e.name) := by
  obtain ⟨name, colls⟩ := e
  cases colls with
  | error =>
    simp only [dbEvents, List.mem_singleton, reduceCtorEq, Ev.report.injEq, false_or] at h
    obtain ⟨k, _, rfl⟩ := h
    exact ⟨rfl, fun _ => rfl⟩
  | cursor items closeFails =>
    refine ⟨?_, fun hc => by simp at hc⟩
    simp only [dbEvents, List.mem_cons, reduceCtorEq, List.mem_append, List.mem_flatMap,
      false_or] at h
    rcases h with (⟨it, _, hit⟩ | hcl) | ⟨k, ⟨it, _, hit⟩ | hcl⟩
    · exact line_of_collEvents l name it (Or.inl hit)
    · cases closeFails
      · simp at hcl
      · simp only [if_true, List.mem_singleton, Ev.say.injEq] at hcl
        subst hcl
        rfl
    · exact line_of_collEvents l name it (Or.inr ⟨k, hit⟩)
    · cases closeFails <;> simp at hcl

theorem mem_log_lists (l : LogLine) (dbs : List DbEntry) (reg : List String)
    (h : l ∈ (GetCollectionLatList (Client.lists dbs) reg).log) :
    ∃ e ∈ dbs, Ev.say l ∈ dbEvents e ∨ ∃ k, Ev.report k l ∈ dbEvents e := by
  rw [(call_eq _ reg).2] at h
  rcases mem_log_runEvents l _ _ h with h1 | h1 | ⟨k, hr, _⟩
  · simp at h1
  · simp only [clientEvents, List.mem_cons, reduceCtorEq, List.mem_flatMap, false_or] at h1
    obtain ⟨e, he, hs⟩ := h1
    exact ⟨e, he, Or.inl hs⟩
  · simp only [clientEvents, List.mem_cons, reduceCtorEq, List.mem_flatMap, false_or] at hr
    obtain ⟨e, he, hs⟩ := hr
    exact ⟨e, he, Or.inr ⟨k, hs⟩⟩

/-- A call that fails to list the collections of `d`, run with the key `d` in
the map, writes no error line about `d`. -/
theorem no_line_about_failed_database (d : String) (c : Client) (reg : List String)
    (hd : validDbName d) (hc : listingFails c d) (hk : d ∈ reg) :
    ∀ l ∈ (GetCollectionLatList c reg).log, lineDb l ≠ some d := by
  intro l hl hdb
  have hsup := suppressed_line_not_logged d (LogLine.listCollectionsErr d) c reg rfl hk
    (not_scopeClears_of_listingFails c d hd hc)
  cases c with
  | listFails => exact hc
  | lists dbs =>
    obtain ⟨e, he, hev⟩ := mem_log_lists l dbs reg hl
    obtain ⟨h1, h2⟩ := line_of_dbEvents l e hev
    have hn : e.name = d := Option.some.inj (h1.symm.trans hdb)
    have hl' := h2 (hc.2 e he hn)
    rw [hn] at hl'
    exact hsup (hl' ▸ hl)

/-! ## Recovering and visited scopes -/

theorem scopeClears_of_scopeRecovers (c : Client) (k : String) (h : scopeRecovers c k) :
    scopeClears c k := by
  cases c with
  | listFails => exact h
  | lists dbs =>
    rcases h with h | ⟨⟨name, colls⟩, he, hr⟩
    · exact Or.inl h
    · refine Or.inr ⟨_, he, ?_⟩
      cases colls with
      | error => exact hr
      | cursor items closeFails =>
        rcases hr with hr | ⟨it, hit, hr⟩
        · exact Or.inl hr
        · refine Or.inr ⟨it, hit, ?_⟩
          match it with
          | CollItem.decodeError => exact hr
          | CollItem.item n AggregateResult.error => exact hr
          | CollItem.item n (AggregateResult.cursor docs) =>
            obtain ⟨⟨d, hd, _⟩, hk⟩ := hr
            exact ⟨List.ne_nil_of_mem hd, hk⟩

theorem visits_of_scopeClears (c : Client) (k : String) (h : scopeClears c k) :
    visits c k := by
  cases c with
  | listFails => exact h.elim
  | lists dbs =>
    rcases h with h | ⟨⟨name, colls⟩, he, hc⟩
    · exact Or.inl h
    · refine Or.inr ⟨_, he, ?_⟩
      cases colls with
      | error => exact hc.elim
      | cursor items closeFails =>
        rcases hc with hc | ⟨it, hit, hc⟩
        · exact Or.inl hc
        · refine Or.inr ⟨it, hit, ?_⟩
          match it with
          | CollItem.decodeError => exact hc
          | CollItem.item n AggregateResult.error => exact hc.elim
          | CollItem.item n (AggregateResult.cursor docs) => exact hc.2

theorem runCalls_append (xs ys : List Client) (reg : List String) :
    runCalls (xs ++ ys) reg = runCalls ys (runCalls xs reg) := by
  simp [runCalls, List.foldl_append]

theorem mem_runCalls_of_not_visits (later : List Client) (k : String) :
    ∀ reg : List String, k ∈ reg → (∀ c ∈ later, ¬ visits c k) → k ∈ runCalls later reg := by
  induction later with
  | nil => intro reg h _; exact h
  | cons c cs ih =>
    intro reg h hl
    have hc : ¬ scopeClears c k :=
      fun hcl => hl c (List.mem_cons_self _ _) (visits_of_scopeClears c k hcl)
    exact ih _ (mem_reg_call_of_not_clears k c reg (Or.inl h) hc)
      (fun c' hc' => hl c' (List.mem_cons_of_mem _ hc'))

/-! ## Export: main properties -/

/-- C5: when the (Database, Name) pairs of the records are pairwise distinct
and the bucket boundaries inside each category are pairwise distinct, Export
leaves in the family, and emits, exactly one sample per histogram bucket of
each non-nil category, labelled db = Database, coll = Name, type = "read",
"write" or "command", micros = the decimal boundary, with the bucket count as
value; a nil category and a nil or empty histogram give no sample. -/
theorem export_one_sample_per_bucket (l : CollectionLatList) (gv : GaugeVec)
    (hcoll : distinctCollections l.Members)
    (hmic : ∀ m ∈ l.Members, distinctBoundaries m.LatencyStats.Reads ∧
      distinctBoundaries m.LatencyStats.Writes ∧ distinctBoundaries m.LatencyStats.Commands) :
    (∃ family emitted, Export (some l) gv = Except.ok (family, emitted) ∧
      family.Perm (expectedSamples l.Members) ∧ emitted.Perm (expectedSamples l.Members)) ∧
    (∀ db coll op lat ops, categorySamples db coll op none = [] ∧
      categorySamples db coll op (some ⟨none, lat, ops⟩) = [] ∧
      categorySamples db coll op (some ⟨some [], lat, ops⟩) = []) := by
  refine ⟨⟨_, _, export_some l gv, ?_, ?_⟩, fun _ _ _ _ _ => ⟨rfl, rfl, rfl⟩⟩ <;>
  · rw [setAll_of_nodup _ [] (by simpa using nodup_keys_expectedSamples l.Members hcoll hmic)]
    simp

/-- C5, witness: one record with the read buckets (0, 5) and (100, 9) and nil
Writes and Commands gives exactly the samples (db, coll, "read", "0") = 5 and
(db, coll, "read", "100") = 9. -/
theorem export_one_sample_per_bucket_witness :
    distinctCollections oneReadRecord.Members ∧
    (∀ m ∈ oneReadRecord.Members, distinctBoundaries m.LatencyStats.Reads ∧
      distinctBoundaries m.LatencyStats.Writes ∧ distinctBoundaries m.LatencyStats.Commands) ∧
    ∃ family emitted, Export (some oneReadRecord) [] = Except.ok (family, emitted) ∧
      family.Perm [(⟨"db", "coll", "read", "0"⟩, 5), (⟨"db", "coll", "read", "100"⟩, 9)] ∧
      emitted.Perm [(⟨"db", "coll", "read", "0"⟩, 5), (⟨"db", "coll", "read", "100"⟩, 9)] :=
  ⟨by decide, by decide,
    (export_one_sample_per_bucket oneReadRecord [] (by decide) (by decide)).1⟩

/-- C6: for every record list, the samples emitted by one Export call have
pairwise distinct label sets, and a sample is emitted exactly when it is the
last write made to its label set in traversal order (records in list order,
then reads, writes, commands, then buckets in histogram order). -/
theorem export_label_sets_distinct_last_wins (l : CollectionLatList) (gv : GaugeVec) :
    ∃ family emitted, Export (some l) gv = Except.ok (family, emitted) ∧
      (emitted.map Prod.fst).Nodup ∧
      ∀ k v, (k, v) ∈ emitted ↔ IsLastWrite (expectedSamples l.Members) k v :=
  ⟨_, _, export_some l gv, nodup_keys_setAll _ [] List.nodup_nil,
    fun k v => mem_setAll_nil_iff _ k v⟩

/-- C7: what Export leaves and emits does not depend on the prior content of
the family, and an Export of the empty list right after any Export leaves and
emits no sample. -/
theorem export_ignores_prior_family (l : CollectionLatList) (gv : GaugeVec) :
    Export (some l) gv = Export (some l) [] ∧
    ∃ family emitted, Export (some l) gv = Except.ok (family, emitted) ∧
      Export (some ⟨[]⟩) family = Except.ok ([], []) :=
  ⟨rfl, _, _, export_some l gv, rfl⟩

/-! ## GetCollectionLatList: main properties -/

/-- A line that is suppressed under a key is not written by the second of two
consecutive calls when a scope with that key fails in the first and neither
call deletes the key. -/
theorem suppressed_on_second_call (k : String) (l : LogLine) (c1 c2 : Client)
    (reg : List String) (hl : lineKey l = some k) (h1 : scopeFails c1 k)
    (h1' : ¬ scopeClears c1 k) (h2 : ¬ scopeClears c2 k) :
    l ∉ (GetCollectionLatList c2 (GetCollectionLatList c1 reg).logSuppressCS).log :=
  suppressed_line_not_logged k l c2 _ hl (mem_reg_call_of_not_clears k c1 reg (Or.inr h1) h1') h2

/-- An aggregation that starts and yields no document leaves the entry of its
collection in the map. -/
theorem empty_cursor_keeps_entry :
    runCalls [clientAggFails, clientAggEmpty] [] = ["b.c"] := by decide

/-- C1: when ListDatabaseNames succeeds, ListCollections fails for X and
succeeds for a listed database y, the returned list has no record whose
Database is X and contains, as one block, every record the collections of y
yield, those returned when y is the only database listed, wherever X and y
stand in the list of names. -/
theorem failed_listing_spares_other_databases (dbs : List DbEntry) (reg : List String)
    (X : String) (y : DbEntry) (items : List CollItem) (closeFails : Bool)
    (hX : listingFails (Client.lists dbs) X) (hy : y ∈ dbs)
    (hyc : y.colls = ListCollectionsResult.cursor items closeFails) :
    ∃ members, (GetCollectionLatList (Client.lists dbs) reg).ret = some ⟨members⟩ ∧
      (∀ r ∈ members, r.Database ≠ X) ∧ collectionRecords y.name items <:+: members ∧
      ∀ reg', (GetCollectionLatList (Client.lists [y]) reg').ret =
        some ⟨collectionRecords y.name items⟩ := by
  refine ⟨_, ret_lists dbs reg, ?_, ?_, ?_⟩
  · intro r hr hdb
    obtain ⟨e, he, hre⟩ := List.mem_flatMap.1 hr
    obtain ⟨h1, h2⟩ := mem_dbRecords e r hre
    exact h2 (hX.2 e he (h1.symm.trans hdb))
  · have := dbRecords_block dbs y hy
    simpa [dbRecords, hyc] using this
  · intro reg'
    rw [ret_lists, appendedRecords_single]
    simp [dbRecords, hyc]

/-- C1, witness: "X" fails; the one collection of "Y" yields two documents,
whose two records both carry the reads decoded last. -/
theorem failed_listing_spares_other_databases_witness :
    listingFails (Client.lists clientXY) "X" ∧
    ∃ members, (GetCollectionLatList (Client.lists clientXY) []).ret = some ⟨members⟩ ∧
      (∀ r ∈ members, r.Database ≠ "X") ∧
      [⟨"Y", "c", "Y.c", 1, ⟨some (oneBucket 9), none, none⟩⟩,
       ⟨"Y", "c", "Y.c", 2, ⟨some (oneBucket 9), none, none⟩⟩] <:+: members ∧
      ∀ reg', (GetCollectionLatList (Client.lists
        [⟨"Y", ListCollectionsResult.cursor
          [CollItem.item "c" (AggregateResult.cursor
            [⟨false, some "Y.c", some 1, PointerDecode.value (oneBucket 5),
                PointerDecode.absent, PointerDecode.absent⟩,
             ⟨false, some "Y.c", some 2, PointerDecode.value (oneBucket 9),
                PointerDecode.absent, PointerDecode.absent⟩])] false⟩]) reg').ret =
        some ⟨[⟨"Y", "c", "Y.c", 1, ⟨some (oneBucket 9), none, none⟩⟩,
          ⟨"Y", "c", "Y.c", 2, ⟨some (oneBucket 9), none, none⟩⟩]⟩ :=
  ⟨by decide,
    failed_listing_spares_other_databases clientXY [] "X"
      ⟨"Y", ListCollectionsResult.cursor
        [CollItem.item "c" (AggregateResult.cursor
          [⟨false, some "Y.c", some 1, PointerDecode.value (oneBucket 5),
              PointerDecode.absent, PointerDecode.absent⟩,
           ⟨false, some "Y.c", some 2, PointerDecode.value (oneBucket 9),
              PointerDecode.absent, PointerDecode.absent⟩])] false⟩
      [CollItem.item "c" (AggregateResult.cursor
        [⟨false, some "Y.c", some 1, PointerDecode.value (oneBucket 5),
            PointerDecode.absent, PointerDecode.absent⟩,
         ⟨false, some "Y.c", some 2, PointerDecode.value (oneBucket 9),
            PointerDecode.absent, PointerDecode.absent⟩])] false
      (by decide) (by decide) rfl⟩

/-- C2: on a collection whose cursor yields two documents, the first of which
fails to decode, the function appends two records, one of them for the
document that failed, where the specification has exactly one. -/
theorem decode_failure_still_appends :
    (GetCollectionLatList clientTwoDocs []).ret =
      some ⟨[⟨"db", "coll", "", 0, noStats⟩, ⟨"db", "coll", "db.coll", 7, noStats⟩]⟩ := by
  decide

/-- C3: for a database name d (not empty, without dot) and every state of the
map: after a call that fails to list the collections of d followed by a call
that lists them, the map has no entry for d; and the second of two consecutive
calls that both fail to list the collections of d writes no error line about
d, in particular not the line of that failure. -/
theorem database_key_cleared_and_suppressed (d : String) (reg : List String)
    (c1 c2 c3 : Client) (hd : validDbName d) (h1 : listingFails c1 d)
    (h2 : listingSucceeds c2 d) (h3 : listingFails c3 d) :
    d ∉ (GetCollectionLatList c2 (GetCollectionLatList c1 reg).logSuppressCS).logSuppressCS ∧
    (∀ l ∈ (GetCollectionLatList c3 (GetCollectionLatList c1 reg).logSuppressCS).log,
      lineDb l ≠ some d) ∧
    LogLine.listCollectionsErr d ∉
      (GetCollectionLatList c3 (GetCollectionLatList c1 reg).logSuppressCS).log := by
  have hreg : d ∈ (GetCollectionLatList c1 reg).logSuppressCS :=
    mem_reg_call_of_not_clears d c1 reg (Or.inr (scopeFails_of_listingFails c1 d h1))
      (not_scopeClears_of_listingFails c1 d hd h1)
  refine ⟨?_, no_line_about_failed_database d c3 _ hd h3 hreg, ?_⟩
  · exact not_mem_reg_call d c2 _ (scopeClears_of_listingSucceeds c2 d h2)
      (not_scopeFails_of_listingSucceeds c2 d hd.2 h2)
  · exact fun hl => no_line_about_failed_database d c3 _ hd h3 hreg _ hl rfl

/-- C3, witness: database "a" fails, then is listed; fails, then fails. -/
theorem database_key_cleared_and_suppressed_witness :
    validDbName "a" ∧ listingFails clientAFails "a" ∧ listingSucceeds clientAEmpty "a" ∧
    "a" ∉ (GetCollectionLatList clientAEmpty
      (GetCollectionLatList clientAFails []).logSuppressCS).logSuppressCS ∧
    (∀ l ∈ (GetCollectionLatList clientAFails
      (GetCollectionLatList clientAFails []).logSuppressCS).log, lineDb l ≠ some "a") ∧
    LogLine.listCollectionsErr "a" ∉
      (GetCollectionLatList clientAFails (GetCollectionLatList clientAFails []).logSuppressCS).log :=
  ⟨by decide, by decide, by decide,
    database_key_cleared_and_suppressed "a" [] clientAFails clientAEmpty clientAFails
      (by decide) (by decide) (by decide) (by decide)⟩

/-- C4, counterexample: from the empty map, a call in which listing the
collections of "a" fails, then a call in which the server has no database:
the key "a" is still in the map, and no operation failed in the last call. -/
theorem stale_key_survives_unvisited_scope :
    "a" ∈ runCalls [clientAFails, clientNoDb] [] ∧ ∀ k, ¬ scopeFails clientNoDb k := by
  refine ⟨by decide, ?_⟩
  intro k h
  simp [scopeFails, clientNoDb] at h

/-- C4, amended: from the empty map, every key in the map after a sequence of
calls is the key of a scope ("" for listing the databases, a database name for
listing its collections, "database.collection" for an aggregation) whose
operation failed in some call of the sequence, after which that scope did not
recover in any call of the sequence (the databases listed, the collections of
that database listed, a document of that aggregation decoded); and the key is
still in the map after every further call that does not visit its scope. -/
theorem registry_keys_failed_and_survive (calls later : List Client) (k : String)
    (h : k ∈ runCalls calls []) (hl : ∀ c ∈ later, ¬ visits c k) :
    (∃ before c after, calls = before ++ c :: after ∧ scopeFails c k ∧
      ∀ c' ∈ after, ¬ scopeRecovers c' k) ∧
    k ∈ runCalls (calls ++ later) [] := by
  refine ⟨?_, ?_⟩
  · clear hl
    induction calls using List.reverseRecOn with
    | nil => simp [runCalls] at h
    | append_singleton cs c ih =>
      rw [runCalls_append] at h
      have hstep : runCalls [c] (runCalls cs []) =
          (GetCollectionLatList c (runCalls cs [])).logSuppressCS := rfl
      rw [hstep] at h
      rcases mem_reg_call k c _ h with hf | ⟨hk, hc⟩
      · exact ⟨cs, c, [], rfl, hf, by simp⟩
      · obtain ⟨before, c0, after, rfl, hf, hafter⟩ := ih hk
        refine ⟨before, c0, after ++ [c], by simp, hf, ?_⟩
        intro c' hc'
        rcases List.mem_append.1 hc' with hc' | hc'
        · exact hafter c' hc'
        · rw [List.mem_singleton] at hc'
          exact hc' ▸ fun hr => hc (scopeClears_of_scopeRecovers c k hr)
  · rw [runCalls_append]
    exact mem_runCalls_of_not_visits later k _ h hl

/-- C4, witness: the key "a" after a failed listing of "a", and after a
further call in which the server has no database. -/
theorem registry_keys_failed_and_survive_witness :
    "a" ∈ runCalls [clientAFails] [] ∧ (∀ c ∈ [clientNoDb], ¬ visits c "a") ∧
    (∃ before c after, [clientAFails] = before ++ c :: after ∧ scopeFails c "a" ∧
      ∀ c' ∈ after, ¬ scopeRecovers c' "a") ∧
    "a" ∈ runCalls ([clientAFails] ++ [clientNoDb]) [] :=
  ⟨by decide, by simp [visits, clientNoDb],
    registry_keys_failed_and_survive [clientAFails] [clientNoDb] "a" (by decide)
      (by simp [visits, clientNoDb])⟩

/-- C8, counterexample: when ListDatabaseNames fails the function returns the
nil pointer, and Export on it does not terminate normally. -/
theorem export_of_nil_result_faults :
    (GetCollectionLatList Client.listFails []).ret = none ∧
    Export (GetCollectionLatList Client.listFails []).ret [] =
      Except.error Fault.nilDereference ∧
    ¬ ∃ family emitted, Export (GetCollectionLatList Client.listFails []).ret [] =
      Except.ok (family, emitted) := by
  refine ⟨rfl, rfl, ?_⟩
  rintro ⟨family, emitted, h⟩
  simp [Export, GetCollectionLatList] at h

/-- C8, amended: when ListDatabaseNames fails, for every state of the map and
of the family, the function returns the nil pointer, which holds no record,
and Export on that returned value does not terminate normally: it faults on
the nil receiver and emits no sample. -/
theorem list_failure_returns_nil (reg : List String) (gv : GaugeVec) :
    (GetCollectionLatList Client.listFails reg).ret = none ∧
    Export (GetCollectionLatList Client.listFails reg).ret gv =
      Except.error Fault.nilDereference ∧
    ¬ ∃ family emitted, Export (GetCollectionLatList Client.listFails reg).ret gv =
      Except.ok (family, emitted) := by
  refine ⟨rfl, rfl, ?_⟩
  rintro ⟨family, emitted, h⟩
  simp [Export, GetCollectionLatList] at h

/-- C9: two consecutive calls in which the same document of "db"."coll" fails
to decode both write the error line of that failure, where the specification
has the second call silent; the map is empty after each of them. -/
theorem decode_failure_logged_every_call :
    GetCollectionLatList clientBadDoc [] =
      ⟨some ⟨[⟨"db", "coll", "", 0, noStats⟩]⟩, [], [LogLine.cursorDecodeErr "db" "coll"]⟩ ∧
    (GetCollectionLatList clientBadDoc (GetCollectionLatList clientBadDoc []).logSuppressCS).log =
      [LogLine.cursorDecodeErr "db" "coll"] := by
  decide

/-- C10: on a collection whose cursor yields two documents that both decode,
the first with reads of count 5 and writes, the second with reads of count 9
and no writes, the function returns two records that both carry the reads of
the second document and the writes of the first, where the specification has
each record keep the latencyStats of its own document. -/
theorem records_share_decoded_stats :
    allDecode clientTwoShards ∧
    (GetCollectionLatList (Client.lists clientTwoShards) []).ret =
      some ⟨[⟨"db", "coll", "db.coll", 1, ⟨some (oneBucket 9), some (oneBucket 1), none⟩⟩,
        ⟨"db", "coll", "db.coll", 2, ⟨some (oneBucket 9), some (oneBucket 1), none⟩⟩]⟩ ∧
    (GetCollectionLatList (Client.lists clientTwoShards) []).ret ≠
      some ⟨[⟨"db", "coll", "db.coll", 1, ⟨some (oneBucket 5), some (oneBucket 1), none⟩⟩,
        ⟨"db", "coll", "db.coll", 2, ⟨some (oneBucket 9), none, none⟩⟩]⟩ := by
  decide

end Mongod
